import Mathlib

/-!
Verification of the antigravity-auth request engine against its specification.

Python strings are embedded as `List Char` (named `Str`), so that the string
operations the source uses (`split`, `replace`, substring tests, lowercasing)
can be given executable, structurally recursive definitions mirroring Python
semantics.  Timestamps are milliseconds, embedded as `Int` (Python integers
are unbounded).  Optional values are `Option`; Python truthiness of an
optional string (`if email:`) is modelled explicitly by `pyTruthy`.
-/

abbrev Str := List Char

/-- Python truthiness of an optional string: `None` and `""` are falsy. -/
def pyTruthy : Option Str → Bool
  | none => false
  | some s => s ≠ []

/-- Python `s.split(sep)` for a one-character separator: splitting the empty
string gives `[""]`, and separators delimit (possibly empty) fields. -/
def pySplitChar (sep : Char) : Str → List Str
  | [] => [[]]
  | c :: rest =>
    let r := pySplitChar sep rest
    if c = sep then [] :: r
    else
      match r with
      | [] => [[c]]
      | h :: t => (c :: h) :: t

theorem pySplitChar_ne_nil (sep : Char) (s : Str) : pySplitChar sep s ≠ [] := by
  cases s with
  | nil => simp [pySplitChar]
  | cons c rest =>
    simp only [pySplitChar]
    by_cases h : c = sep
    · simp [h]
    · simp only [if_neg h]
      cases pySplitChar sep rest <;> simp

theorem pySplitChar_no_sep {sep : Char} {s : Str} (h : sep ∉ s) :
    pySplitChar sep s = [s] := by
  induction s with
  | nil => rfl
  | cons c rest ih =>
    simp only [List.mem_cons, not_or] at h
    have hc : ¬ c = sep := fun hcc => h.1 hcc.symm
    simp [pySplitChar, ih h.2, hc]

theorem pySplitChar_append_sep {sep : Char} {xs : Str} (ys : Str) (h : sep ∉ xs) :
    pySplitChar sep (xs ++ sep :: ys) = xs :: pySplitChar sep ys := by
  induction xs with
  | nil => simp [pySplitChar]
  | cons c rest ih =>
    simp only [List.mem_cons, not_or] at h
    have hc : ¬ c = sep := fun hcc => h.1 hcc.symm
    simp only [List.cons_append, pySplitChar, if_neg hc]
    rw [show rest.append (sep :: ys) = rest ++ sep :: ys from rfl, ih h.2]

/-! ## Token manager (`src/antigravity_auth/token.py`) -/

/-- `RefreshParts`: parsed components of a stored composite refresh secret. -/
structure RefreshParts where
  refresh_token : Str
  project_id : Option Str := none
  managed_project_id : Option Str := none
deriving DecidableEq, Repr

/-- `parts[i] if len(parts) > i and parts[i] else None`. -/
def optField (l : List Str) (i : Nat) : Option Str :=
  match l.get? i with
  | some s => if s = [] then none else some s
  | none => none

/-- `parse_refresh_parts`: split the stored secret on `|`; component 0 is the
refresh token, components 1 and 2 are the project ids, empty ones read as null. -/
def parse_refresh_parts (refresh : Str) : RefreshParts :=
  let parts := pySplitChar '|' refresh
  { refresh_token := parts.headD []
    project_id := optField parts 1
    managed_project_id := optField parts 2 }

/-- `format_refresh_parts`: `f"{rt}|{project_id or ''}"`, with `|managed` appended
only when the managed project id is truthy. -/
def format_refresh_parts (parts : RefreshParts) : Str :=
  let base := parts.refresh_token ++ '|' :: (parts.project_id.getD [])
  match parts.managed_project_id with
  | some m => if m = [] then base else base ++ '|' :: m
  | none => base

/-- `calculate_token_expiry`: request start plus lifetime, clamped at the start. -/
def calculate_token_expiry (request_time_ms : Int) (expires_in_seconds : Int) : Int :=
  if expires_in_seconds ≤ 0 then request_time_ms
  else request_time_ms + expires_in_seconds * 1000

/-- `AuthDetails`: OAuth authentication details. -/
structure AuthDetails where
  refresh : Str
  access : Str
  expires : Int
  email : Option Str := none
deriving DecidableEq, Repr

/-- Parsed JSON body of a token-endpoint reply; each field models the presence
of the corresponding key (`error`, `access_token`, `expires_in`, `refresh_token`). -/
structure TokenBody where
  error : Option Str := none
  access_token : Option Str := none
  expires_in : Option Int := none
  refresh_token : Option Str := none
deriving DecidableEq, Repr

/-- Outcome of the POST to the token endpoint: a transport error, or an HTTP
status together with the parsed JSON body (`none` when parsing raised). -/
inductive TokenHttp where
  | netError : TokenHttp
  | response (status : Int) (body : Option TokenBody) : TokenHttp
deriving DecidableEq, Repr

/-- Result of a refresh attempt: the distinguished revoked error
(`TokenRefreshError` with code `invalid_grant`), "no new auth" (`None`),
or fresh `AuthDetails`. -/
inductive RefreshResult where
  | revoked : RefreshResult
  | noAuth : RefreshResult
  | refreshed (auth : AuthDetails) : RefreshResult
deriving DecidableEq, Repr

/-- `refresh_access_token`, with the network interaction made explicit: the
HTTP outcome `out` stands for what `client.post` returned at time `now`. -/
def refresh_access_token (now : Int) (auth : AuthDetails) (out : TokenHttp) :
    RefreshResult :=
  let parts := parse_refresh_parts auth.refresh
  if parts.refresh_token = [] then .noAuth
  else
    match out with
    | .netError => .noAuth
    | .response status body =>
      if status ≠ 200 then
        match body with
        | none => .noAuth
        | some b =>
          if b.error.getD "unknown_error".data = "invalid_grant".data then .revoked
          else .noAuth
      else
        match body with
        | none => .noAuth
        | some b =>
          let expires_in := b.expires_in.getD 3600
          let new_refresh_token := b.refresh_token.getD parts.refresh_token
          match b.access_token with
          | none => .noAuth
          | some access_token =>
            if access_token = [] then .noAuth
            else
              .refreshed
                { refresh := format_refresh_parts
                    { refresh_token := new_refresh_token
                      project_id := parts.project_id
                      managed_project_id := parts.managed_project_id }
                  access := access_token
                  expires := calculate_token_expiry now expires_in
                  email := auth.email }

/-! ## String helpers mirroring the Python operations used by `client.py` -/

/-- Python `str.lower()` (the source only lowercases ASCII model names). -/
def lowerStr (s : Str) : Str := s.map Char.toLower

/-- Python `pat in hay` substring test. -/
def pyContains (hay pat : Str) : Bool :=
  match hay with
  | [] => pat.isEmpty
  | c :: rest => pat.isPrefixOf (c :: rest) || pyContains rest pat

/-- One step bound for `pyReplaceAux`: each step consumes at least one
character of the haystack, so `hay.length + 1` fuel always suffices. -/
def pyReplaceAux (fuel : Nat) (hay pat rep : Str) : Str :=
  match fuel, hay with
  | 0, hay => hay
  | _ + 1, [] => []
  | n + 1, c :: rest =>
    if pat ≠ [] ∧ pat.isPrefixOf (c :: rest) then
      rep ++ pyReplaceAux n ((c :: rest).drop pat.length) pat rep
    else
      c :: pyReplaceAux n rest pat rep

/-- Python `hay.replace(pat, rep)`: replace every non-overlapping occurrence,
scanning left to right. -/
def pyReplace (hay pat rep : Str) : Str :=
  pyReplaceAux (hay.length + 1) hay pat rep

/-! ## Request preparer and HTTP client (`src/antigravity_auth/client.py`,
constants from `src/antigravity_auth/constants.py`) -/

def ANTIGRAVITY_ENDPOINT_DAILY : Str :=
  "https://daily-cloudcode-pa.sandbox.googleapis.com".data

def ANTIGRAVITY_ENDPOINT_AUTOPUSH : Str :=
  "https://autopush-cloudcode-pa.sandbox.googleapis.com".data

def ANTIGRAVITY_ENDPOINT_PROD : Str :=
  "https://cloudcode-pa.googleapis.com".data

/-- Endpoint fallback order for API requests. -/
def ANTIGRAVITY_ENDPOINT_FALLBACKS : List Str :=
  [ANTIGRAVITY_ENDPOINT_DAILY, ANTIGRAVITY_ENDPOINT_AUTOPUSH, ANTIGRAVITY_ENDPOINT_PROD]

/-- Gemini CLI endpoint (an alias of the prod endpoint). -/
def GEMINI_CLI_ENDPOINT : Str := ANTIGRAVITY_ENDPOINT_PROD

def HEADER_STYLE_ANTIGRAVITY : Str := "antigravity".data
def HEADER_STYLE_GEMINI_CLI : Str := "gemini-cli".data
def MODEL_FAMILY_GEMINI : Str := "gemini".data
def MODEL_FAMILY_CLAUDE : Str := "claude".data

/-- `get_model_family`: `claude`/`opus`/`sonnet` substring (case-insensitive)
means Claude, otherwise Gemini. -/
def get_model_family (model : Str) : Str :=
  let lower_model := lowerStr model
  if pyContains lower_model "claude".data || pyContains lower_model "opus".data
      || pyContains lower_model "sonnet".data then
    MODEL_FAMILY_CLAUDE
  else
    MODEL_FAMILY_GEMINI

/-- `get_header_style_from_model`: Claude family or an explicit `:antigravity`
marker or a non-preview Gemini 3 model resolves to the antigravity style,
everything else to gemini-cli. -/
def get_header_style_from_model (model : Str) : Str :=
  let lower := lowerStr model
  let family := get_model_family model
  if family = MODEL_FAMILY_CLAUDE then HEADER_STYLE_ANTIGRAVITY
  else if pyContains lower ":antigravity".data then HEADER_STYLE_ANTIGRAVITY
  else if pyContains lower "gemini-3".data && !pyContains lower "-preview".data then
    HEADER_STYLE_ANTIGRAVITY
  else HEADER_STYLE_GEMINI_CLI

def GEMINI_3_DEFAULT_TIER : Str := "low".data

/-- `TIER_REGEX` search: the tier word captured by `-(minimal|low|medium|high)$`
on the lowercased model name, if any. -/
def find_tier_suffix (model : Str) : Option Str :=
  let lower := lowerStr model
  if "-minimal".data.isSuffixOf lower then some "minimal".data
  else if "-low".data.isSuffixOf lower then some "low".data
  else if "-medium".data.isSuffixOf lower then some "medium".data
  else if "-high".data.isSuffixOf lower then some "high".data
  else none

/-- `resolve_gemini3_model`: Gemini 3 Pro keeps (or gains) a tier suffix in the
name, Gemini 3 Flash drops it and passes the tier as a field. -/
def resolve_gemini3_model (model : Str) : Str × Option Str :=
  let lower := lowerStr model
  if !pyContains lower "gemini-3".data then (model, none)
  else
    let tier := find_tier_suffix model
    let base_name :=
      match tier with
      | some t => model.take (model.length - (t.length + 1))
      | none => model
    let is_pro := pyContains lower "gemini-3-pro".data
    let is_flash := pyContains lower "gemini-3-flash".data
    if is_pro then
      match tier with
      | some t => (model, some t)
      | none => (base_name ++ '-' :: GEMINI_3_DEFAULT_TIER, some GEMINI_3_DEFAULT_TIER)
    else if is_flash then (base_name, some (tier.getD GEMINI_3_DEFAULT_TIER))
    else (model, tier)

/-- `strip_model_suffix`: remove a trailing `:antigravity` (case-insensitive). -/
def strip_model_suffix (model : Str) : Str :=
  if ":antigravity".data.isSuffixOf (lowerStr model) then
    model.take (model.length - ":antigravity".data.length)
  else model

/-- The part of a `PreparedRequest` the verified claims are about. -/
structure PreparedRequest where
  url : Str
  endpoint : Str
  header_style : Str
  effective_model : Str
  streaming : Bool
deriving DecidableEq, Repr

/-- `prepare_request` (endpoint selection and URL construction; the body and
headers are not under any claim).  `endpoint`/`header_style` are the optional
overrides, resolved by Python truthiness as in the source. -/
def prepare_request (model : Str) (endpoint : Option Str) (header_style : Option Str)
    (streaming : Bool) : PreparedRequest :=
  let model_clean := strip_model_suffix model
  let resolved := resolve_gemini3_model model_clean
  let effective_header_style :=
    if pyTruthy header_style then header_style.getD []
    else get_header_style_from_model model
  let effective_endpoint :=
    if pyTruthy endpoint then endpoint.getD []
    else if effective_header_style = HEADER_STYLE_GEMINI_CLI then GEMINI_CLI_ENDPOINT
    else ANTIGRAVITY_ENDPOINT_FALLBACKS.headD []
  let action := if streaming then "streamGenerateContent".data else "generateContent".data
  let url := effective_endpoint ++ "/v1internal:".data ++ action
      ++ (if streaming then "?alt=sse".data else [])
  { url := url
    endpoint := effective_endpoint
    header_style := effective_header_style
    effective_model := resolved.1
    streaming := streaming }

/-- What the network answered one HTTP attempt with: a transport-level failure
(carrying the message used as `last_error`), or a status code together with
the retry-after delay that `parse_retry_after` resolves from the reply
(`parse_retry_after` wraps its own body parse in try/except and never raises)
and the outcome of evaluating `response.json() if response.text else {}`:
`jsonError = some msg` models a non-empty body that fails to parse as JSON,
raising with `str(e) = msg`; `none` models an evaluation that succeeds (empty
body or valid JSON). -/
inductive HttpAnswer where
  | netError (msg : Str) : HttpAnswer
  | http (status : Int) (retryAfterParsed : Option Int) (jsonError : Option Str) :
      HttpAnswer
deriving DecidableEq, Repr

/-- Python `x or d` on an `Optional[int]`: `None` and `0` are falsy. -/
def pyOrInt (v : Option Int) (d : Int) : Int :=
  match v with
  | some n => if n = 0 then d else n
  | none => d

/-- The fields of `AntigravityResponse` the claims are about. -/
structure AGResponse where
  success : Bool
  status_code : Int
  error : Option Str := none
  retry_after_ms : Option Int := none
deriving DecidableEq, Repr

/-- `f"HTTP {status}"`. -/
def httpErrorMsg (status : Int) : Str := "HTTP ".data ++ (toString status).data

/-- The inner loop of `execute` that swaps the base portion of the URL: the
first known endpoint occurring in the URL is replaced by the new candidate
(`for ep in ANTIGRAVITY_ENDPOINT_FALLBACKS + [GEMINI_CLI_ENDPOINT]: ... break`). -/
def rewrite_url_go (url endpoint : Str) : List Str → Str
  | [] => url
  | ep :: rest =>
    if pyContains url ep then pyReplace url ep endpoint
    else rewrite_url_go url endpoint rest

/-- URL rewriting for one fallback endpoint, as done at the top of each
iteration of `execute`. -/
def rewrite_url (url endpoint : Str) : Str :=
  rewrite_url_go url endpoint (ANTIGRAVITY_ENDPOINT_FALLBACKS ++ [GEMINI_CLI_ENDPOINT])

/-- Retriable statuses: `response.status_code in (403, 404, 500, 502, 503, 504)`. -/
def isFallbackStatus (status : Int) : Bool :=
  status = 403 || status = 404 || status = 500 || status = 502 || status = 503 || status = 504

/-- The `for endpoint in endpoints` loop of `AntigravityClient.execute`.  The
network is a function `net` from the attempted URL to its answer; alongside the
response the list of URLs actually attempted is returned, in order.  The body
of the loop sits inside `try ... except Exception as e: last_error = str(e);
continue`, so `response.json()` raising inside the 429 return expression
(`body=response.json() if response.text else {}`), or inside the non-streaming
success/client-error return, advances to the next endpoint with `str(e)` as
the last error; on a streaming request the body is `parse_sse_response`, which
never raises.  The 429 delay is `parse_retry_after(response) or 60000`, a
Python `or`, so a parsed 0 also yields 60000. -/
def execute_loop (net : Str → HttpAnswer) (requrl : Str) (streaming : Bool)
    (last_error : Option Str) : List Str → AGResponse × List Str
  | [] =>
    ({ success := false, status_code := 0,
       error := some (last_error.getD "All endpoints failed".data) }, [])
  | endpoint :: rest =>
    let url := rewrite_url requrl endpoint
    match net url with
    | .netError msg =>
      let r := execute_loop net requrl streaming (some msg) rest
      (r.1, url :: r.2)
    | .http status retryAfterParsed jsonError =>
      if status = 429 then
        match jsonError with
        | some msg =>
          let r := execute_loop net requrl streaming (some msg) rest
          (r.1, url :: r.2)
        | none =>
          ({ success := false, status_code := 429, error := some "Rate limited".data,
             retry_after_ms := some (pyOrInt retryAfterParsed 60000) }, [url])
      else if isFallbackStatus status then
        let r := execute_loop net requrl streaming (some (httpErrorMsg status)) rest
        (r.1, url :: r.2)
      else if streaming then
        ({ success := status = 200, status_code := status,
           error := if status = 200 then none else some (httpErrorMsg status) }, [url])
      else
        match jsonError with
        | some msg =>
          let r := execute_loop net requrl streaming (some msg) rest
          (r.1, url :: r.2)
        | none =>
          ({ success := status = 200, status_code := status,
             error := if status = 200 then none else some (httpErrorMsg status) }, [url])

/-- `AntigravityClient.execute`: endpoint list defaulting
(`fallback_endpoints or ANTIGRAVITY_ENDPOINT_FALLBACKS`, Python truthiness on
the list) followed by the fallback loop. -/
def client_execute (net : Str → HttpAnswer) (request : PreparedRequest)
    (fallback_endpoints : Option (List Str)) : AGResponse × List Str :=
  let endpoints :=
    match fallback_endpoints with
    | some l => if l = [] then ANTIGRAVITY_ENDPOINT_FALLBACKS else l
    | none => ANTIGRAVITY_ENDPOINT_FALLBACKS
  execute_loop net request.url request.streaming none endpoints

/-! ## Account pool (`src/antigravity/accounts.py`) -/

/-- `ManagedAccount`: a pooled identity with its runtime state.  The
`rate_limit_reset_times` dict is an association list from quota key to reset
timestamp (ms), with Python-dict update semantics (`rlGet`). -/
structure ManagedAccount where
  index : Int
  email : Option Str
  refresh_token : Str
  project_id : Option Str := none
  managed_project_id : Option Str := none
  added_at : Int
  last_used : Int
  rate_limit_reset_times : List (Str × Int) := []
  cooling_down_until : Option Int := none
  cooldown_reason : Option Str := none
  consecutive_failures : Int := 0
deriving DecidableEq, Repr

/-- `account.rate_limit_reset_times.get(key, 0)`. -/
def rlGet (acc : ManagedAccount) (key : Str) : Int :=
  match acc.rate_limit_reset_times.lookup key with
  | some v => v
  | none => 0

/-- `get_quota_key`: `claude` for the Claude family, otherwise the style base
with an optional `:<model>` suffix (Python truthiness on `model`). -/
def get_quota_key (family header_style : Str) (model : Option Str) : Str :=
  if family = MODEL_FAMILY_CLAUDE then "claude".data
  else
    let base :=
      if header_style = HEADER_STYLE_ANTIGRAVITY then "gemini-antigravity".data
      else "gemini-cli".data
    if pyTruthy model then base ++ ':' :: model.getD [] else base

/-- `account.cooling_down_until and account.cooling_down_until > now`
(`0` is falsy in Python, hence the extra `c ≠ 0`). -/
def cooldownActive (now : Int) : Option Int → Bool
  | none => false
  | some c => decide (c ≠ 0 ∧ now < c)

/-- `AccountManager.is_rate_limited`: cooldown, then the `claude` reset for the
Claude family, and for Gemini both quota keys — limited only if BOTH are in
the future. -/
def is_rate_limited (now : Int) (acc : ManagedAccount) (family : Str)
    (model : Option Str) : Bool :=
  if cooldownActive now acc.cooling_down_until then true
  else if family = MODEL_FAMILY_CLAUDE then decide (now < rlGet acc "claude".data)
  else
    let antigravity_key := get_quota_key family HEADER_STYLE_ANTIGRAVITY model
    let cli_key := get_quota_key family HEADER_STYLE_GEMINI_CLI model
    decide (now < rlGet acc antigravity_key) && decide (now < rlGet acc cli_key)

/-- `AccountManager.is_rate_limited_for_header_style`: cooldown, then the single
quota key of the given style. -/
def is_rate_limited_for_header_style (now : Int) (acc : ManagedAccount)
    (family header_style : Str) (model : Option Str) : Bool :=
  if cooldownActive now acc.cooling_down_until then true
  else decide (now < rlGet acc (get_quota_key family header_style model))

/-- `AccountManager.get_available_header_style`: prefer antigravity, fall back
to gemini-cli for Gemini; Claude only ever uses antigravity. -/
def get_available_header_style (now : Int) (acc : ManagedAccount) (family : Str)
    (model : Option Str) : Option Str :=
  if family = MODEL_FAMILY_CLAUDE then
    if !is_rate_limited_for_header_style now acc family HEADER_STYLE_ANTIGRAVITY model then
      some HEADER_STYLE_ANTIGRAVITY
    else none
  else if !is_rate_limited_for_header_style now acc family HEADER_STYLE_ANTIGRAVITY model then
    some HEADER_STYLE_ANTIGRAVITY
  else if !is_rate_limited_for_header_style now acc family HEADER_STYLE_GEMINI_CLI model then
    some HEADER_STYLE_GEMINI_CLI
  else none

/-- The in-memory state of an `AccountManager`: the pool plus the per-family
active indices (`_active_index_by_family`, keyed by the two families). -/
structure MgrState where
  accounts : List ManagedAccount
  active_gemini : Int := 0
  active_claude : Int := 0
deriving DecidableEq, Repr

/-- `self._active_index_by_family.get(family, 0)`. -/
def activeIndexGet (st : MgrState) (family : Str) : Int :=
  if family = MODEL_FAMILY_GEMINI then st.active_gemini
  else if family = MODEL_FAMILY_CLAUDE then st.active_claude
  else 0

/-- `self._active_index_by_family[family] = i` (only ever called with one of
the two families by the code under claim). -/
def activeIndexSet (st : MgrState) (family : Str) (i : Int) : MgrState :=
  if family = MODEL_FAMILY_GEMINI then { st with active_gemini := i }
  else if family = MODEL_FAMILY_CLAUDE then { st with active_claude := i }
  else st

/-- The position `get_current_account_for_family` reads: the family's index if
it is in range, position 0 otherwise (`none` for the empty pool). -/
def current_position_for_family (st : MgrState) (family : Str) : Option Nat :=
  if st.accounts = [] then none
  else
    let index := activeIndexGet st family
    if 0 ≤ index ∧ index < (st.accounts.length : Int) then some index.toNat
    else some 0

/-- `AccountManager.get_current_account_for_family`. -/
def get_current_account_for_family (st : MgrState) (family : Str) :
    Option ManagedAccount :=
  match current_position_for_family st family with
  | some i => st.accounts.get? i
  | none => none

/-- The `for offset in range(len(self._accounts))` scan of
`get_next_for_family`; on a hit the active index moves there and the account's
`last_used` is touched. -/
def get_next_go (now : Int) (st : MgrState) (family : Str) (model : Option Str)
    (current_index : Int) : List Nat → Option ManagedAccount × MgrState
  | [] => (none, st)
  | offset :: rest =>
    let index := ((current_index + (offset : Int)) % (st.accounts.length : Int)).toNat
    match st.accounts.get? index with
    | none => get_next_go now st family model current_index rest
    | some a =>
      if !is_rate_limited now a family model then
        let touched := { a with last_used := now }
        (some touched,
          activeIndexSet { st with accounts := st.accounts.set index touched }
            family (index : Int))
      else get_next_go now st family model current_index rest

/-- `AccountManager.get_next_for_family`. -/
def get_next_for_family (now : Int) (st : MgrState) (family : Str)
    (model : Option Str) : Option ManagedAccount × MgrState :=
  if st.accounts = [] then (none, st)
  else
    get_next_go now st family model (activeIndexGet st family)
      (List.range st.accounts.length)

/-- `AccountManager.get_current_or_next_for_family` ("sticky" selection): keep
the current account when it is not rate-limited for the preferred style,
otherwise rotate. -/
def get_current_or_next_for_family (now : Int) (st : MgrState) (family : Str)
    (model : Option Str) (header_style : Str) : Option ManagedAccount × MgrState :=
  match current_position_for_family st family with
  | some i =>
    match st.accounts.get? i with
    | some cur =>
      if !is_rate_limited_for_header_style now cur family header_style model then
        let touched := { cur with last_used := now }
        (some touched, { st with accounts := st.accounts.set i touched })
      else get_next_for_family now st family model
    | none => get_next_for_family now st family model
  | none => get_next_for_family now st family model

/-- The fresh `ManagedAccount(index=len(self._accounts), ...)` appended by
`ensure_account_exists`. -/
def default_new_account (now : Int) (st : MgrState) (refresh_token : Str)
    (project_id managed_project_id email : Option Str) : ManagedAccount :=
  { index := (st.accounts.length : Int)
    email := email
    refresh_token := refresh_token
    project_id := project_id
    managed_project_id := managed_project_id
    added_at := now
    last_used := now }

/-- The `for account in self._accounts: if account.email == email` loop of
`ensure_account_exists`: the first email match is overwritten in place
(secret, project fields when truthy) and returned with the updated pool. -/
def ensure_update_scan (refresh_token : Str)
    (project_id managed_project_id email : Option Str) :
    List ManagedAccount → Option (ManagedAccount × List ManagedAccount)
  | [] => none
  | a :: rest =>
    if a.email = email then
      let a2 := { a with
        refresh_token := refresh_token
        project_id := if pyTruthy project_id then project_id else a.project_id
        managed_project_id :=
          if pyTruthy managed_project_id then managed_project_id
          else a.managed_project_id }
      some (a2, a2 :: rest)
    else
      match ensure_update_scan refresh_token project_id managed_project_id email rest with
      | some (a2, rest2) => some (a2, a :: rest2)
      | none => none

/-- `ensure_account_exists`: match by refresh token, then (for truthy email)
by email — overwriting secret and project fields — otherwise append. -/
def ensure_account_exists (now : Int) (st : MgrState) (refresh_token : Str)
    (project_id managed_project_id email : Option Str) :
    ManagedAccount × MgrState :=
  match st.accounts.find? (fun a => a.refresh_token = refresh_token) with
  | some a => (a, st)
  | none =>
    match (if pyTruthy email then
        ensure_update_scan refresh_token project_id managed_project_id email
          st.accounts
      else none) with
    | some r => (r.1, { st with accounts := r.2 })
    | none =>
      (default_new_account now st refresh_token project_id managed_project_id email,
        { st with accounts := st.accounts
            ++ [default_new_account now st refresh_token project_id managed_project_id email] })

/-- Re-number `account.index` to the list position, as the loop in
`remove_account` does. -/
def reindex_accounts (l : List ManagedAccount) : List ManagedAccount :=
  l.enum.map (fun p => { p.2 with index := (p.1 : Int) })

/-- The per-family clamp of `remove_account`: any index at or past the new end
becomes `max(0, len - 1)`. -/
def clamp_active (i : Int) (len : Nat) : Int :=
  if i ≥ (len : Int) then max 0 ((len : Int) - 1) else i

/-- `AccountManager.remove_account`: drop the first structurally equal account
(`list.remove`), re-index, clamp both family indices; `False` when absent. -/
def remove_account (st : MgrState) (acc : ManagedAccount) : Bool × MgrState :=
  if acc ∈ st.accounts then
    let accounts2 := reindex_accounts (st.accounts.erase acc)
    (true,
      { accounts := accounts2
        active_gemini := clamp_active st.active_gemini accounts2.length
        active_claude := clamp_active st.active_claude accounts2.length })
  else (false, st)

/-- `key.startswith("claude")` filtering inside `get_min_wait_time_for_family`:
Claude keeps only `claude*` keys, Gemini skips them. -/
def familyKeyMatch (family key : Str) : Bool :=
  if family = MODEL_FAMILY_CLAUDE then "claude".data.isPrefixOf key
  else if family = MODEL_FAMILY_GEMINI then !("claude".data.isPrefixOf key)
  else true

/-- `min_wait = min(min_wait, v)` with `min_wait` starting at `float("inf")`. -/
def optMin : Option Int → Int → Option Int
  | none, v => some v
  | some m, v => some (min m v)

/-- The per-account accumulation of `get_min_wait_time_for_family`: the
cooldown end (when truthy) and every reset timestamp of the family, each as
`max(0, t - now)`. -/
def min_wait_entries (now : Int) (family : Str) (acc : ManagedAccount)
    (m : Option Int) : Option Int :=
  let m1 :=
    match acc.cooling_down_until with
    | some c => if c ≠ 0 then optMin m (max 0 (c - now)) else m
    | none => m
  acc.rate_limit_reset_times.foldl
    (fun mm kv => if familyKeyMatch family kv.1 then optMin mm (max 0 (kv.2 - now)) else mm)
    m1

/-- The account loop of `get_min_wait_time_for_family`: `0` as soon as an
account is available, otherwise the running minimum, with the 60-second
fallback when nothing contributed. -/
def get_min_wait_go (now : Int) (family : Str) (model : Option Str) :
    List ManagedAccount → Option Int → Int
  | [], m => m.getD 60000
  | a :: rest, m =>
    if !is_rate_limited now a family model then 0
    else get_min_wait_go now family model rest (min_wait_entries now family a m)

/-- `AccountManager.get_min_wait_time_for_family`. -/
def get_min_wait_time_for_family (now : Int) (st : MgrState) (family : Str)
    (model : Option Str) : Int :=
  get_min_wait_go now family model st.accounts none

/-! ## Persisted storage (`src/antigravity_auth/storage.py`) -/

/-- `RateLimitResetTimes` of the persisted schema. -/
structure RateLimitResetTimes where
  claude : Option Int := none
  gemini_antigravity : Option Int := none
  gemini_cli : Option Int := none
deriving DecidableEq, Repr

/-- `AccountMetadata`: one persisted identity. -/
structure AccountMetadata where
  refresh_token : Str
  email : Option Str := none
  project_id : Option Str := none
  managed_project_id : Option Str := none
  added_at : Int
  last_used : Int
  last_switch_reason : Option Str := none
  rate_limit_reset_times : RateLimitResetTimes := {}
  cooling_down_until : Option Int := none
  cooldown_reason : Option Str := none
deriving DecidableEq, Repr

/-- `AccountStorage`: the persisted container (family indices flattened from
`activeIndexByFamily`). -/
structure AccountStorage where
  version : Int := 3
  accounts : List AccountMetadata := []
  active_index : Int := 0
  active_gemini : Int := 0
  active_claude : Int := 0
deriving DecidableEq, Repr

/-- `by_email[email] = account` with Python-dict semantics: an update at an
existing key keeps the key's original position, a new key is appended. -/
def dedupInsertByEmail (byEmail : List (Str × AccountMetadata)) (e : Str)
    (a : AccountMetadata) : List (Str × AccountMetadata) :=
  match byEmail with
  | [] => [(e, a)]
  | (e0, ex) :: rest =>
    if e0 = e then
      if a.last_used > ex.last_used then (e0, a) :: rest
      else if a.last_used = ex.last_used ∧ a.added_at > ex.added_at then (e0, a) :: rest
      else (e0, ex) :: rest
    else (e0, ex) :: dedupInsertByEmail rest e a

/-- The account loop of `deduplicate_accounts_by_email`, carrying the
`by_email` dict and the `no_email` list. -/
def dedup_go : List AccountMetadata → List (Str × AccountMetadata) →
    List AccountMetadata → List AccountMetadata
  | [], byEmail, noEmail => byEmail.map Prod.snd ++ noEmail
  | a :: rest, byEmail, noEmail =>
    if !pyTruthy a.email then dedup_go rest byEmail (noEmail ++ [a])
    else dedup_go rest (dedupInsertByEmail byEmail (a.email.getD []) a) noEmail

/-- `deduplicate_accounts_by_email`: one account per truthy email (keeping the
newest by `last_used`, then `added_at`), email-less accounts preserved, and
the result laid out as deduplicated-emailed accounts followed by email-less
ones. -/
def deduplicate_accounts_by_email (accounts : List AccountMetadata) :
    List AccountMetadata :=
  dedup_go accounts [] []

/-- The in-place field overwrite `add_or_update_account` applies to a matched
account: secret overwritten, project fields overwritten when truthy,
`last_used` touched. -/
def apply_update (now : Int) (refresh_token : Str)
    (project_id managed_project_id : Option Str) (a : AccountMetadata) :
    AccountMetadata :=
  { a with
    refresh_token := refresh_token
    project_id := if pyTruthy project_id then project_id else a.project_id
    managed_project_id :=
      if pyTruthy managed_project_id then managed_project_id
      else a.managed_project_id
    last_used := now }

/-- The fresh `AccountMetadata` appended by `add_or_update_account` when no
email matches. -/
def fresh_account (now : Int) (email : Option Str) (refresh_token : Str)
    (project_id managed_project_id : Option Str) : AccountMetadata :=
  { refresh_token := refresh_token
    email := email
    project_id := project_id
    managed_project_id := managed_project_id
    added_at := now
    last_used := now }

/-- `add_or_update_account` as the logical transform it applies to the loaded
storage (the surrounding disk load/save is not modelled): update the first
account with a matching truthy email in place, else append a fresh one; then
deduplicate and re-validate `active_index`. -/
def add_or_update_account (now : Int) (email : Option Str) (refresh_token : Str)
    (project_id managed_project_id : Option Str) (storage : AccountStorage) :
    AccountStorage :=
  let existing_index : Option Nat :=
    if pyTruthy email then storage.accounts.findIdx? (fun a => a.email = email)
    else none
  let accounts1 :=
    match existing_index with
    | some i =>
      match storage.accounts.get? i with
      | some a =>
        storage.accounts.set i
          (apply_update now refresh_token project_id managed_project_id a)
      | none => storage.accounts
    | none =>
      storage.accounts ++
        [fresh_account now email refresh_token project_id managed_project_id]
  let accounts2 := deduplicate_accounts_by_email accounts1
  let active :=
    if storage.active_index ≥ (accounts2.length : Int) then 0
    else storage.active_index
  { storage with accounts := accounts2, active_index := active }

/-- `set_active_account` on the loaded storage (`none` models a failed load):
reject out-of-range indices, otherwise set the plain and both family indices. -/
def set_active_account (index : Int) (storage : Option AccountStorage) :
    Bool × Option AccountStorage :=
  match storage with
  | none => (false, none)
  | some st =>
    if index < 0 ∨ index ≥ (st.accounts.length : Int) then (false, some st)
    else
      (true, some { st with
        active_index := index
        active_gemini := index
        active_claude := index })

/-! ## Response decoding (`extract_text_from_response` in `client.py`) -/

/-- One element of `candidates[i].content.parts`: the optional `text` key and
the optional `thought` key (only the presence of `thought` is ever tested). -/
structure ResponsePart where
  text : Option Str := none
  thought : Option Str := none
deriving DecidableEq, Repr

/-- The `texts` list built by the inner `extract_text_from_parts`: a part
contributes its `text` exactly when it has a `text` key and no `thought` key. -/
def collect_texts : List ResponsePart → List Str
  | [] => []
  | p :: ps =>
    if p.text.isSome ∧ p.thought = none then p.text.getD [] :: collect_texts ps
    else collect_texts ps

/-- `extract_text_from_parts`: `"".join(texts)`. -/
def extract_text_from_parts (parts : List ResponsePart) : Str :=
  (collect_texts parts).flatten

/-- `candidate.get("content", {})` target. -/
structure CandidateContent where
  parts : List ResponsePart := []
deriving DecidableEq, Repr

structure Candidate where
  content : Option CandidateContent := none
deriving DecidableEq, Repr

structure InnerResponse where
  candidates : List Candidate := []
deriving DecidableEq, Repr

/-- A non-streaming body: `inner = body.get("response", body)` either finds a
nested `response` object or falls back to the body itself. -/
inductive NonStreamingBody where
  | direct (inner : InnerResponse) : NonStreamingBody
  | nested (inner : InnerResponse) : NonStreamingBody
deriving DecidableEq, Repr

def NonStreamingBody.inner : NonStreamingBody → InnerResponse
  | .direct i => i
  | .nested i => i

/-- `extract_text_from_response` (non-streaming branch): text of the first
candidate's parts, `""` when there are no candidates. -/
def extract_text_from_response (body : NonStreamingBody) : Str :=
  let inner := body.inner
  match inner.candidates with
  | [] => []
  | c :: _ => extract_text_from_parts (c.content.getD {}).parts

/-- Modelled from the spec's words, for comparison with the code: "emit
concatenation of every `text` field whose part object does not also contain
`thought`". -/
def spec_text_concat (parts : List ResponsePart) : Str :=
  ((parts.filter (fun p => p.thought = none)).filterMap (fun p => p.text)).flatten

/-! ## Claim C5: refresh-secret round trip -/

theorem pySplitChar_two {a b : Str} (ha : '|' ∉ a) (hb : '|' ∉ b) :
    pySplitChar '|' (a ++ '|' :: b) = [a, b] := by
  rw [pySplitChar_append_sep b ha, pySplitChar_no_sep hb]

theorem pySplitChar_three {a b c : Str} (ha : '|' ∉ a) (hb : '|' ∉ b)
    (hc : '|' ∉ c) :
    pySplitChar '|' (a ++ '|' :: (b ++ '|' :: c)) = [a, b, c] := by
  rw [pySplitChar_append_sep (b ++ '|' :: c) ha, pySplitChar_two hb hc]

/-- A well-formed composite-secret component: absent, or non-empty and free of
the `|` separator. -/
def wfComponent : Option Str → Prop
  | none => True
  | some s => s ≠ [] ∧ '|' ∉ s

instance (o : Option Str) : Decidable (wfComponent o) := by
  unfold wfComponent; cases o <;> infer_instance

/-- C5, counterexample: under the claim's own well-formedness (refresh token
free of `|`, project components non-empty when present) the round trip fails,
because a project id may still contain `|`: formatting
`(refresh "r", project "a|b", no managed id)` and parsing it back yields
`(refresh "r", project "a", managed "b")`. -/
theorem refresh_round_trip_cex :
    ('|' ∉ ("r".data : Str)) ∧ ("a|b".data : Str) ≠ [] ∧
    parse_refresh_parts (format_refresh_parts
        { refresh_token := "r".data, project_id := some "a|b".data,
          managed_project_id := none })
      ≠ { refresh_token := "r".data, project_id := some "a|b".data,
          managed_project_id := none } := by
  decide

/-- C5 (amended: project components must also be free of the `|` separator):
for every `RefreshParts` whose refresh token contains no `|` and whose project
components are, when present, non-empty and `|`-free,
`parse_refresh_parts (format_refresh_parts p) = p`; the formatted string has
exactly two `|`-fields when the managed project id is absent (the single
project-id separator) and three otherwise; and empty middle and trailing
components parse as null. -/
theorem refresh_parts_round_trip (p : RefreshParts)
    (hrt : '|' ∉ p.refresh_token)
    (hpid : wfComponent p.project_id)
    (hmid : wfComponent p.managed_project_id) :
    parse_refresh_parts (format_refresh_parts p) = p
    ∧ (pySplitChar '|' (format_refresh_parts p)).length
        = (if p.managed_project_id = none then 2 else 3)
    ∧ (∀ rt : Str, '|' ∉ rt →
        parse_refresh_parts (rt ++ "||".data)
          = { refresh_token := rt, project_id := none, managed_project_id := none }) := by
  obtain ⟨rt, pid, mpid⟩ := p
  simp only at hrt hpid hmid
  have hempty : ('|' : Char) ∉ ([] : Str) := by simp
  have key : parse_refresh_parts (format_refresh_parts ⟨rt, pid, mpid⟩) = ⟨rt, pid, mpid⟩
      ∧ (pySplitChar '|' (format_refresh_parts ⟨rt, pid, mpid⟩)).length
          = (if mpid = none then 2 else 3) := by
    cases pid with
    | none =>
      cases mpid with
      | none =>
        constructor
        · simp only [format_refresh_parts, Option.getD_none]
          unfold parse_refresh_parts
          rw [pySplitChar_two hrt hempty]
          simp [optField]
        · simp only [format_refresh_parts, Option.getD_none]
          rw [pySplitChar_two hrt hempty]
          simp
      | some m =>
        obtain ⟨hm1, hm2⟩ := hmid
        have hshape : (rt ++ '|' :: ([] : Str)) ++ '|' :: m
            = rt ++ '|' :: (([] : Str) ++ '|' :: m) := by simp
        constructor
        · simp only [format_refresh_parts, Option.getD_none, if_neg hm1]
          unfold parse_refresh_parts
          rw [hshape, pySplitChar_three hrt hempty hm2]
          simp [optField, hm1]
        · simp only [format_refresh_parts, Option.getD_none, if_neg hm1]
          rw [hshape, pySplitChar_three hrt hempty hm2]
          simp
    | some q =>
      obtain ⟨hq1, hq2⟩ := hpid
      cases mpid with
      | none =>
        constructor
        · simp only [format_refresh_parts, Option.getD_some]
          unfold parse_refresh_parts
          rw [pySplitChar_two hrt hq2]
          simp [optField, hq1]
        · simp only [format_refresh_parts, Option.getD_some]
          rw [pySplitChar_two hrt hq2]
          simp
      | some m =>
        obtain ⟨hm1, hm2⟩ := hmid
        have hshape : (rt ++ '|' :: q) ++ '|' :: m = rt ++ '|' :: (q ++ '|' :: m) := by
          simp
        constructor
        · simp only [format_refresh_parts, Option.getD_some, if_neg hm1]
          unfold parse_refresh_parts
          rw [hshape, pySplitChar_three hrt hq2 hm2]
          simp [optField, hq1, hm1]
        · simp only [format_refresh_parts, Option.getD_some, if_neg hm1]
          rw [hshape, pySplitChar_three hrt hq2 hm2]
          simp
  refine ⟨key.1, key.2, ?_⟩
  intro rt2 hrt2
  have : (rt2 ++ "||".data : Str) = rt2 ++ '|' :: ([] ++ '|' :: []) := by simp
  unfold parse_refresh_parts
  rw [this, pySplitChar_three hrt2 hempty hempty]
  simp [optField]

/-- C5 witness: the amended round trip at a concrete well-formed secret. -/
theorem refresh_parts_round_trip_witness :
    parse_refresh_parts (format_refresh_parts
        { refresh_token := "r".data, project_id := some "p".data,
          managed_project_id := some "m".data })
      = { refresh_token := "r".data, project_id := some "p".data,
          managed_project_id := some "m".data } :=
  (refresh_parts_round_trip _ (by decide) (by decide) (by decide)).1

/-! ## Claim C9: thinking-part filtering in response decoding -/

/-- C9: decoding concatenates exactly the text fields of candidate parts whose
part object does not also contain a `thought` key, and on the literal parts
`[{text:"a"}, {thought:"z"}, {text:"b", thought:"y"}, {text:"c"}]` the
extracted text is exactly `"ac"`. -/
theorem extract_text_filters_thoughts :
    (∀ parts : List ResponsePart, extract_text_from_parts parts = spec_text_concat parts)
    ∧ extract_text_from_response
        (.direct { candidates := [{ content := some { parts := [
            { text := some "a".data },
            { thought := some "z".data },
            { text := some "b".data, thought := some "y".data },
            { text := some "c".data }] } }] })
      = "ac".data := by
  constructor
  · intro parts
    induction parts with
    | nil => rfl
    | cons p ps ih =>
      simp only [extract_text_from_parts, spec_text_concat] at ih ⊢
      cases hpt : p.text with
      | none =>
        by_cases hth : p.thought = none <;>
          simp [collect_texts, List.filter, List.filterMap, hpt, hth, ih]
      | some t =>
        by_cases hth : p.thought = none <;>
          simp [collect_texts, List.filter, List.filterMap, hpt, hth, ih]
  · decide

/-! ## Claim C3: Gemini rate-limit predicate -/

theorem cooldownActive_iff {now : Int} (hnow : 0 ≤ now) (o : Option Int) :
    cooldownActive now o = true ↔ ∃ c, o = some c ∧ now < c := by
  cases o with
  | none => simp [cooldownActive]
  | some c =>
    simp only [cooldownActive, decide_eq_true_eq, Option.some.injEq]
    constructor
    · rintro ⟨h1, h2⟩
      exact ⟨c, rfl, h2⟩
    · rintro ⟨d, rfl, h2⟩
      exact ⟨by omega, h2⟩

/-- C3: for every Gemini-family identity and optional model (at any
non-negative clock), `is_rate_limited` returns true iff the cooldown end is in
the future, or both quota keys — the antigravity one and the gemini-cli one,
each model-suffixed via `get_quota_key` when a model is given — have reset
timestamps in the future. -/
theorem is_rate_limited_gemini_iff (now : Int) (acc : ManagedAccount)
    (model : Option Str) (hnow : 0 ≤ now) :
    is_rate_limited now acc MODEL_FAMILY_GEMINI model = true ↔
      ((∃ c, acc.cooling_down_until = some c ∧ now < c)
        ∨ (now < rlGet acc (get_quota_key MODEL_FAMILY_GEMINI HEADER_STYLE_ANTIGRAVITY model)
            ∧ now < rlGet acc (get_quota_key MODEL_FAMILY_GEMINI HEADER_STYLE_GEMINI_CLI model))) := by
  have hfam : ¬ (MODEL_FAMILY_GEMINI = MODEL_FAMILY_CLAUDE) := by decide
  rw [← cooldownActive_iff hnow acc.cooling_down_until]
  unfold is_rate_limited
  by_cases hcd : cooldownActive now acc.cooling_down_until = true
  · simp [hcd]
  · simp [hcd, hfam]

/-- C3 witness: a concrete identity whose antigravity quota is exhausted but
whose gemini-cli quota is free is not rate-limited for Gemini. -/
theorem is_rate_limited_gemini_iff_witness :
    is_rate_limited 1000
        { index := 0, email := none, refresh_token := "r".data,
          added_at := 0, last_used := 0,
          rate_limit_reset_times := [("gemini-antigravity".data, 5000)] }
        MODEL_FAMILY_GEMINI none = false := by
  have h := is_rate_limited_gemini_iff 1000
      { index := 0, email := none, refresh_token := "r".data,
        added_at := 0, last_used := 0,
        rate_limit_reset_times := [("gemini-antigravity".data, 5000)] }
      none (by decide)
  by_cases hb : is_rate_limited 1000
      { index := 0, email := none, refresh_token := "r".data,
        added_at := 0, last_used := 0,
        rate_limit_reset_times := [("gemini-antigravity".data, 5000)] }
      MODEL_FAMILY_GEMINI none = true
  · rcases h.mp hb with ⟨c, hc, _⟩ | ⟨_, h2⟩
    · simp at hc
    · exact absurd h2 (by decide)
  · simpa using hb

/-! ## Claim C7: refresh failure classification and revocation handling -/

/-- What `_get_auth_for_account` surfaces for one refresh attempt: the raised
`TokenRefreshFailedError` on revocation, or the returned optional auth. -/
inductive GetAuthOutcome where
  | revokedRaised : GetAuthOutcome
  | got (auth : Option AuthDetails) : GetAuthOutcome
deriving DecidableEq, Repr

/-- Replace the first structurally equal account (the aliased mutation
`account.refresh_token = ...` of the source). -/
def replace_first (l : List ManagedAccount) (a b : ManagedAccount) :
    List ManagedAccount :=
  match l with
  | [] => []
  | x :: rest => if x = a then b :: rest else x :: replace_first rest a b

/-- The outcome handling of `AntigravityService._get_auth_for_account` after
`refresh_access_token` came back: `invalid_grant` removes the account from the
manager and persists (`save_to_disk`, the `Bool`) before raising; any other
failure returns no auth; success stores the possibly rotated refresh token on
the account. -/
def handle_refresh_result (st : MgrState) (acc : ManagedAccount) :
    RefreshResult → MgrState × Bool × GetAuthOutcome
  | .revoked => ((remove_account st acc).2, true, .revokedRaised)
  | .noAuth => (st, false, .got none)
  | .refreshed au =>
    ({ st with accounts := (replace_first st.accounts acc
        { acc with refresh_token := (parse_refresh_parts au.refresh).refresh_token }) },
      false, .got (some au))

/-- C7: with a non-empty stored refresh token, the refresh operation yields the
distinguished revoked error exactly when the token endpoint answered non-200
with body error `invalid_grant`; network errors, unparseable bodies, other
non-200 replies and 200-replies without a truthy `access_token` all yield
"no new auth"; and on the revoked outcome the dispatch-side handler removes
the offending identity (one fewer account) and persists before raising. -/
theorem refresh_revoked_classification (now : Int) (auth : AuthDetails)
    (out : TokenHttp)
    (hrt : (parse_refresh_parts auth.refresh).refresh_token ≠ []) :
    (refresh_access_token now auth out = .revoked ↔
      ∃ s b, out = .response s (some b) ∧ s ≠ 200
        ∧ b.error.getD "unknown_error".data = "invalid_grant".data)
    ∧ refresh_access_token now auth .netError = .noAuth
    ∧ (∀ s : Int, refresh_access_token now auth (.response s none) = .noAuth)
    ∧ (∀ (s : Int) (b : TokenBody), s ≠ 200 →
        b.error.getD "unknown_error".data ≠ "invalid_grant".data →
        refresh_access_token now auth (.response s (some b)) = .noAuth)
    ∧ (∀ b : TokenBody, (b.access_token = none ∨ b.access_token = some []) →
        refresh_access_token now auth (.response 200 (some b)) = .noAuth)
    ∧ (∀ (st : MgrState) (acc : ManagedAccount), acc ∈ st.accounts →
        (handle_refresh_result st acc .revoked).1.accounts.length + 1
            = st.accounts.length
        ∧ (handle_refresh_result st acc .revoked).2.1 = true
        ∧ (handle_refresh_result st acc .revoked).2.2 = .revokedRaised) := by
  refine ⟨?_, ?_, ?_, ?_, ?_, ?_⟩
  · constructor
    · intro h
      match out with
      | .netError => simp [refresh_access_token, hrt] at h
      | .response s none =>
        by_cases hs : s ≠ 200 <;> simp [refresh_access_token, hrt, hs] at h
      | .response s (some b) =>
        by_cases hs : s ≠ 200
        · refine ⟨s, b, rfl, hs, ?_⟩
          by_cases he : b.error.getD "unknown_error".data = "invalid_grant".data
          · exact he
          · simp [refresh_access_token, hrt, hs, he] at h
        · simp only [ne_eq, not_not] at hs
          subst hs
          cases hat : b.access_token with
          | none => simp [refresh_access_token, hrt, hat] at h
          | some t =>
            by_cases ht : t = [] <;> simp [refresh_access_token, hrt, hat, ht] at h
    · rintro ⟨s, b, rfl, hs, he⟩
      simp [refresh_access_token, hrt, hs, he]
  · simp [refresh_access_token, hrt]
  · intro s
    by_cases hs : s ≠ 200 <;> simp [refresh_access_token, hrt, hs]
  · intro s b hs he
    simp [refresh_access_token, hrt, hs, he]
  · intro b hb
    rcases hb with hb | hb <;> simp [refresh_access_token, hrt, hb]
  · intro st acc hmem
    refine ⟨?_, rfl, rfl⟩
    simp only [handle_refresh_result, remove_account, if_pos hmem]
    have hlen : (st.accounts.erase acc).length = st.accounts.length - 1 :=
      List.length_erase_of_mem hmem
    have hpos : 0 < st.accounts.length := List.length_pos.mpr (by
      intro hnil; rw [hnil] at hmem; simp at hmem)
    simp only [reindex_accounts, List.length_map, List.enum_length, hlen]
    omega

/-- C7 witness: a 400 `invalid_grant` reply at a concrete identity is
classified as revoked. -/
theorem refresh_revoked_classification_witness :
    refresh_access_token 0 { refresh := "r".data, access := [], expires := 0 }
        (.response 400 (some { error := some "invalid_grant".data })) = .revoked := by
  have h := refresh_revoked_classification 0
      { refresh := "r".data, access := [], expires := 0 }
      (.response 400 (some { error := some "invalid_grant".data }))
      (by decide)
  exact h.1.mpr ⟨400, { error := some "invalid_grant".data }, rfl, by decide, by decide⟩

/-! ## Claim C2: minimum wait time -/

/-- Modelled from the spec's words, for comparison with the code: the
"smallest positive delta across (cooldown ends, all reset timestamps for that
family)" contributed by one identity. -/
def positive_deltas (now : Int) (family : Str) (acc : ManagedAccount) : List Int :=
  (match acc.cooling_down_until with
    | some c => if now < c then [c - now] else []
    | none => [])
  ++ acc.rate_limit_reset_times.filterMap (fun kv =>
      if familyKeyMatch family kv.1 ∧ now < kv.2 then some (kv.2 - now) else none)

/-- Modelled from the spec's words: 0 when an identity is available, otherwise
the smallest positive delta, with the fixed 60-second fallback. -/
def claim_min_wait (now : Int) (st : MgrState) (family : Str)
    (model : Option Str) : Int :=
  if st.accounts.any (fun a => !is_rate_limited now a family model) then 0
  else
    (((st.accounts.map (positive_deltas now family)).flatten.foldl optMin none).getD
      60000)

/-- The deltas the code actually accumulates: each cooldown end (when truthy,
even if already past) and each family reset timestamp, clamped at zero. -/
def clamped_deltas (now : Int) (family : Str) (acc : ManagedAccount) : List Int :=
  (match acc.cooling_down_until with
    | some c => if c ≠ 0 then [max 0 (c - now)] else []
    | none => [])
  ++ acc.rate_limit_reset_times.filterMap (fun kv =>
      if familyKeyMatch family kv.1 then some (max 0 (kv.2 - now)) else none)

/-- A concrete Gemini identity for claim C2: cooldown end 999, both Gemini
quota resets at 51000. -/
def c2_account : ManagedAccount :=
  { index := 0
    email := none
    refresh_token := "r".data
    added_at := 0
    last_used := 0
    rate_limit_reset_times :=
      [("gemini-antigravity".data, 51000), ("gemini-cli".data, 51000)]
    cooling_down_until := some 999 }

/-- A one-identity pool built from `c2_account`. -/
def c2_state : MgrState := { accounts := [c2_account] }

/-- C2, counterexample: at time 1000 the identity `c2_account` is rate-limited
(both quota resets at 51000 are in the future), the smallest positive delta is
50000 ms, yet `get_min_wait_time_for_family` returns 0, because it clamps the
stale cooldown delta (cooldown ended at 999) to zero instead of discarding it. -/
theorem min_wait_cex :
    c2_state.accounts.all
        (fun a => is_rate_limited 1000 a MODEL_FAMILY_GEMINI none) = true
    ∧ get_min_wait_time_for_family 1000 c2_state MODEL_FAMILY_GEMINI none = 0
    ∧ claim_min_wait 1000 c2_state MODEL_FAMILY_GEMINI none = 50000 := by
  decide

theorem foldl_optMin_filterMap (P : Str × Int → Bool) (g : Str × Int → Int)
    (l : List (Str × Int)) (m : Option Int) :
    List.foldl (fun mm kv => if P kv then optMin mm (g kv) else mm) m l
      = List.foldl optMin m
          (l.filterMap (fun kv => if P kv then some (g kv) else none)) := by
  induction l generalizing m with
  | nil => rfl
  | cons kv rest ih =>
    by_cases h : P kv = true <;> simp [List.filterMap_cons, h, ih]

theorem min_wait_entries_foldl (now : Int) (family : Str) (acc : ManagedAccount)
    (m : Option Int) :
    min_wait_entries now family acc m
      = (clamped_deltas now family acc).foldl optMin m := by
  unfold min_wait_entries clamped_deltas
  rw [List.foldl_append,
    foldl_optMin_filterMap (fun kv => familyKeyMatch family kv.1)
      (fun kv => max 0 (kv.2 - now)) acc.rate_limit_reset_times]
  congr 1
  cases acc.cooling_down_until with
  | none => rfl
  | some c => by_cases hc : c ≠ 0 <;> simp [hc]

theorem get_min_wait_go_zero (now : Int) (family : Str) (model : Option Str)
    (l : List ManagedAccount) (m : Option Int)
    (h : ∃ a ∈ l, is_rate_limited now a family model = false) :
    get_min_wait_go now family model l m = 0 := by
  induction l generalizing m with
  | nil => simp at h
  | cons a rest ih =>
    rcases h with ⟨b, hb, hrl⟩
    rcases List.mem_cons.mp hb with rfl | hbrest
    · simp [get_min_wait_go, hrl]
    · by_cases ha : is_rate_limited now a family model = true
      · simp only [get_min_wait_go, ha, Bool.not_true, Bool.false_eq_true, if_false]
        exact ih _ ⟨b, hbrest, hrl⟩
      · simp only [Bool.not_eq_true] at ha
        simp [get_min_wait_go, ha]

theorem get_min_wait_go_all (now : Int) (family : Str) (model : Option Str)
    (l : List ManagedAccount) (m : Option Int)
    (h : ∀ a ∈ l, is_rate_limited now a family model = true) :
    get_min_wait_go now family model l m
      = (((l.map (clamped_deltas now family)).flatten.foldl optMin m).getD 60000) := by
  induction l generalizing m with
  | nil => rfl
  | cons a rest ih =>
    have ha := h a (List.mem_cons_self a rest)
    simp only [get_min_wait_go, ha, Bool.not_true, Bool.false_eq_true, if_false,
      List.map_cons, List.flatten_cons, List.foldl_append]
    rw [min_wait_entries_foldl]
    exact ih _ (fun b hb => h b (List.mem_cons_of_mem a hb))

/-- C2 (amended: the deltas the minimum ranges over are clamped at zero rather
than restricted to positive ones, so a recorded cooldown end or family reset
timestamp lying at or before now makes the result 0): min-wait returns 0 when
some identity is not rate-limited; otherwise it returns the minimum of the
clamped deltas from cooldown ends (when set and non-zero) and the family's
reset timestamps, and the fixed 60000 ms fallback when there are none. -/
theorem min_wait_characterization (now : Int) (st : MgrState) (family : Str)
    (model : Option Str) :
    ((∃ a ∈ st.accounts, is_rate_limited now a family model = false) →
      get_min_wait_time_for_family now st family model = 0)
    ∧ ((∀ a ∈ st.accounts, is_rate_limited now a family model = true) →
      get_min_wait_time_for_family now st family model
        = (((st.accounts.map (clamped_deltas now family)).flatten.foldl optMin
            none).getD 60000)) :=
  ⟨fun h => get_min_wait_go_zero now family model st.accounts none h,
   fun h => get_min_wait_go_all now family model st.accounts none h⟩

/-- C2 witness: the amended characterization evaluated on the concrete
all-rate-limited pool. -/
theorem min_wait_characterization_witness :
    get_min_wait_time_for_family 1000 c2_state MODEL_FAMILY_GEMINI none
      = (((c2_state.accounts.map (clamped_deltas 1000 MODEL_FAMILY_GEMINI)).flatten.foldl
          optMin none).getD 60000) :=
  (min_wait_characterization 1000 c2_state MODEL_FAMILY_GEMINI none).2 (by decide)

/-! ## Claims C1 and C8: endpoint selection and fallback -/

/-- The answers on which `execute` moves to the next endpoint: transport
errors, the retriable statuses, and any answer whose return expression
evaluates `response.json()` on an unparseable non-empty body — a 429
(`body=response.json() if response.text else {}` sits inside its return), or
a non-streaming success/client-error return. -/
def advancesToNext (streaming : Bool) (a : HttpAnswer) : Bool :=
  match a with
  | .netError _ => true
  | .http s _ jsonError =>
    isFallbackStatus s || (jsonError.isSome && ((s = 429 : Bool) || !streaming))

theorem isFallbackStatus_429 : isFallbackStatus 429 = false := by decide

theorem execute_loop_skip (net : Str → HttpAnswer) (requrl : Str)
    (streaming : Bool) (es1 rest : List Str)
    (hcont : ∀ e' ∈ es1,
      advancesToNext streaming (net (rewrite_url requrl e')) = true)
    (le : Option Str) :
    ∃ le2, execute_loop net requrl streaming le (es1 ++ rest)
      = ((execute_loop net requrl streaming le2 rest).1,
         es1.map (rewrite_url requrl)
           ++ (execute_loop net requrl streaming le2 rest).2) := by
  induction es1 generalizing le with
  | nil => exact ⟨le, rfl⟩
  | cons e1 es1 ih =>
    have h1 := hcont e1 (List.mem_cons_self _ _)
    have hrest : ∀ e' ∈ es1,
        advancesToNext streaming (net (rewrite_url requrl e')) = true :=
      fun e' he' => hcont e' (List.mem_cons_of_mem _ he')
    cases hnet : net (rewrite_url requrl e1) with
    | netError msg =>
      obtain ⟨le2, hle2⟩ := ih hrest (some msg)
      refine ⟨le2, ?_⟩
      simp only [List.cons_append, execute_loop, hnet, List.append_eq, hle2,
        List.map_cons, List.append_assoc]
    | http s ra je =>
      rw [hnet] at h1
      simp only [advancesToNext, Bool.or_eq_true, Bool.and_eq_true,
        decide_eq_true_eq] at h1
      by_cases hfb : isFallbackStatus s = true
      · have h429 : ¬ s = 429 := by
          intro hc; rw [hc, isFallbackStatus_429] at hfb; cases hfb
        obtain ⟨le2, hle2⟩ := ih hrest (some (httpErrorMsg s))
        refine ⟨le2, ?_⟩
        simp only [List.cons_append, execute_loop, hnet, if_neg h429, hfb,
          if_true, List.append_eq, hle2, List.map_cons, List.append_assoc]
      · have h1' : je.isSome = true ∧ (s = 429 ∨ streaming = false) := by
          rcases h1 with h | ⟨hj, hor⟩
          · exact absurd h hfb
          · refine ⟨hj, ?_⟩
            rcases hor with h | h
            · exact Or.inl h
            · exact Or.inr (by revert h; cases streaming <;> simp)
        obtain ⟨msg, hje⟩ := Option.isSome_iff_exists.mp h1'.1
        subst hje
        obtain ⟨le2, hle2⟩ := ih hrest (some msg)
        refine ⟨le2, ?_⟩
        have hfb2 : isFallbackStatus s = false := by
          revert hfb; cases isFallbackStatus s <;> simp
        rcases h1'.2 with h429 | hstr
        · subst h429
          simp only [List.cons_append, execute_loop, hnet, if_pos rfl, if_true,
            List.append_eq, hle2, List.map_cons, List.append_assoc]
        · by_cases h429 : s = 429
          · subst h429
            simp only [List.cons_append, execute_loop, hnet, if_pos rfl, if_true,
              List.append_eq, hle2, List.map_cons, List.append_assoc]
          · subst hstr
            simp only [List.cons_append, execute_loop, hnet, if_neg h429, hfb2,
              Bool.false_eq_true, if_false, List.append_eq, hle2,
              List.map_cons, List.append_assoc]

theorem execute_loop_all_continue (net : Str → HttpAnswer) (requrl : Str)
    (streaming : Bool) (l : List Str)
    (h : ∀ e' ∈ l, advancesToNext streaming (net (rewrite_url requrl e')) = true) :
    ∀ le, (execute_loop net requrl streaming le l).1.status_code = 0
      ∧ (execute_loop net requrl streaming le l).1.success = false
      ∧ (execute_loop net requrl streaming le l).2 = l.map (rewrite_url requrl) := by
  induction l with
  | nil => intro le; exact ⟨rfl, rfl, rfl⟩
  | cons e1 l ih =>
    intro le
    have h1 := h e1 (List.mem_cons_self _ _)
    have hrest := fun e' he' => h e' (List.mem_cons_of_mem e1 he')
    cases hnet : net (rewrite_url requrl e1) with
    | netError msg =>
      have := ih hrest (some msg)
      simp only [execute_loop, hnet, List.map_cons]
      exact ⟨this.1, this.2.1, by rw [this.2.2]⟩
    | http s ra je =>
      rw [hnet] at h1
      simp only [advancesToNext, Bool.or_eq_true, Bool.and_eq_true,
        decide_eq_true_eq] at h1
      by_cases hfb : isFallbackStatus s = true
      · have h429 : ¬ s = 429 := by
          intro hc; rw [hc, isFallbackStatus_429] at hfb; cases hfb
        have := ih hrest (some (httpErrorMsg s))
        simp only [execute_loop, hnet, if_neg h429, hfb, if_true, List.map_cons]
        exact ⟨this.1, this.2.1, by rw [this.2.2]⟩
      · have h1' : je.isSome = true ∧ (s = 429 ∨ streaming = false) := by
          rcases h1 with h | ⟨hj, hor⟩
          · exact absurd h hfb
          · refine ⟨hj, ?_⟩
            rcases hor with h | h
            · exact Or.inl h
            · exact Or.inr (by revert h; cases streaming <;> simp)
        obtain ⟨msg, hje⟩ := Option.isSome_iff_exists.mp h1'.1
        subst hje
        have hfb2 : isFallbackStatus s = false := by
          revert hfb; cases isFallbackStatus s <;> simp
        have := ih hrest (some msg)
        rcases h1'.2 with h429 | hstr
        · subst h429
          simp only [execute_loop, hnet, if_pos rfl, if_true, List.map_cons]
          exact ⟨this.1, this.2.1, by rw [this.2.2]⟩
        · by_cases h429 : s = 429
          · subst h429
            simp only [execute_loop, hnet, if_pos rfl, if_true, List.map_cons]
            exact ⟨this.1, this.2.1, by rw [this.2.2]⟩
          · subst hstr
            simp only [execute_loop, hnet, if_neg h429, hfb2,
              Bool.false_eq_true, if_false, List.map_cons]
            exact ⟨this.1, this.2.1, by rw [this.2.2]⟩

/-- The network of the C8 counterexample: the daily endpoint answers 429 with
a 90-second retry-after but a non-empty body that is not JSON (so
`response.json()` raises); the other endpoints answer 200. -/
def c8cex_net : Str → HttpAnswer := fun u =>
  if u = ("https://daily-cloudcode-pa.sandbox.googleapis.com".data
      ++ "/v1internal:streamGenerateContent?alt=sse".data)
  then .http 429 (some 90000) (some "Expecting value".data)
  else .http 200 none none

/-- C8, counterexample: the first endpoint answers 429, yet the dispatch loop
does not return that rate-limited response — building it evaluates
`response.json()` on the unparseable body, which raises into the blanket
`except` and advances — so the loop attempts the next fallback endpoint and
returns its 200; moreover a 429 whose parsed retry-after is 0 returns the
60000 fallback (Python `or` treats 0 as falsy), not the resolved 0. -/
theorem execute_fallback_cex :
    (client_execute c8cex_net
        (prepare_request "gemini-3-pro".data none none true) none).1.status_code = 200
    ∧ (client_execute c8cex_net
        (prepare_request "gemini-3-pro".data none none true) none).2.length = 2
    ∧ (execute_loop (fun _ => .http 429 (some 0) none)
        (prepare_request "gemini-3-pro".data none none true).url true none
        [ANTIGRAVITY_ENDPOINT_DAILY]).1.retry_after_ms = some 60000 := by
  refine ⟨?_, ?_, ?_⟩ <;> decide

/-- C8 (amended: a 429 short-circuits only when its body expression
`response.json() if response.text else {}` evaluates without raising — a 429
whose non-empty body fails to parse raises into the blanket `except` and
advances to the next endpoint, as does a non-streaming success or
client-error reply with an unparseable body — and the returned delay is
`parse_retry_after(response) or 60000`, a Python `or`, so a parsed 0 also
yields the 60000 fallback): within `execute`, endpoints whose answer advances
(statuses 403/404/500/502/503/504, network errors, replies whose body parse
raises in a return expression) are skipped in order; the first endpoint
answering 429 with an evaluable body makes the loop return the rate-limited
response with the `or`-resolved retry-after immediately, attempting no
further endpoint; a 429 with an unparseable body advances instead; a success
or any other status returns immediately when streaming or when its body
evaluates; if every endpoint advances, the loop ends with the status-0
failure response after attempting them all; and the default endpoint order is
(E_daily, E_autopush, E_prod). -/
theorem execute_fallback_behavior (net : Str → HttpAnswer) (requrl : Str)
    (streaming : Bool) (le : Option Str) (es1 : List Str) (e : Str) (es2 : List Str)
    (hcont : ∀ e' ∈ es1,
      advancesToNext streaming (net (rewrite_url requrl e')) = true) :
    (∀ ra, net (rewrite_url requrl e) = .http 429 ra none →
      execute_loop net requrl streaming le (es1 ++ e :: es2)
        = ({ success := false, status_code := 429,
             error := some "Rate limited".data,
             retry_after_ms := some (pyOrInt ra 60000) },
           es1.map (rewrite_url requrl) ++ [rewrite_url requrl e]))
    ∧ (∀ ra msg, net (rewrite_url requrl e) = .http 429 ra (some msg) →
        execute_loop net requrl streaming le (es1 ++ e :: es2)
          = ((execute_loop net requrl streaming (some msg) es2).1,
             es1.map (rewrite_url requrl)
               ++ rewrite_url requrl e
                 :: (execute_loop net requrl streaming (some msg) es2).2))
    ∧ (∀ s ra je, net (rewrite_url requrl e) = .http s ra je → s ≠ 429 →
        isFallbackStatus s = false → (streaming = true ∨ je = none) →
        execute_loop net requrl streaming le (es1 ++ e :: es2)
          = ({ success := decide (s = 200), status_code := s,
               error := if s = 200 then none else some (httpErrorMsg s),
               retry_after_ms := none },
             es1.map (rewrite_url requrl) ++ [rewrite_url requrl e]))
    ∧ ((∀ e' ∈ es1 ++ e :: es2,
          advancesToNext streaming (net (rewrite_url requrl e')) = true) →
        (execute_loop net requrl streaming le (es1 ++ e :: es2)).1.status_code = 0
        ∧ (execute_loop net requrl streaming le (es1 ++ e :: es2)).1.success = false
        ∧ (execute_loop net requrl streaming le (es1 ++ e :: es2)).2
            = (es1 ++ e :: es2).map (rewrite_url requrl))
    ∧ (∀ req : PreparedRequest, client_execute net req none
        = execute_loop net req.url req.streaming none
            [ANTIGRAVITY_ENDPOINT_DAILY, ANTIGRAVITY_ENDPOINT_AUTOPUSH,
             ANTIGRAVITY_ENDPOINT_PROD]) := by
  refine ⟨?_, ?_, ?_, ?_, fun req => rfl⟩
  · intro ra hnet
    obtain ⟨le2, hle2⟩ :=
      execute_loop_skip net requrl streaming es1 (e :: es2) hcont le
    rw [hle2]
    have hstep : execute_loop net requrl streaming le2 (e :: es2)
        = ({ success := false, status_code := 429,
             error := some "Rate limited".data,
             retry_after_ms := some (pyOrInt ra 60000) },
           [rewrite_url requrl e]) := by
      simp [execute_loop, hnet]
    rw [hstep]
  · intro ra msg hnet
    obtain ⟨le2, hle2⟩ :=
      execute_loop_skip net requrl streaming es1 (e :: es2) hcont le
    rw [hle2]
    have hstep : execute_loop net requrl streaming le2 (e :: es2)
        = ((execute_loop net requrl streaming (some msg) es2).1,
           rewrite_url requrl e
             :: (execute_loop net requrl streaming (some msg) es2).2) := by
      simp [execute_loop, hnet]
    rw [hstep]
  · intro s ra je hnet hs hfb hok
    obtain ⟨le2, hle2⟩ :=
      execute_loop_skip net requrl streaming es1 (e :: es2) hcont le
    rw [hle2]
    have hstep : execute_loop net requrl streaming le2 (e :: es2)
        = ({ success := decide (s = 200), status_code := s,
             error := if s = 200 then none else some (httpErrorMsg s),
             retry_after_ms := none }, [rewrite_url requrl e]) := by
      rcases hok with hstr | hje
      · subst hstr
        simp [execute_loop, hnet, hs, hfb]
      · subst hje
        cases streaming <;> simp [execute_loop, hnet, hs, hfb]
    rw [hstep]
  · intro hall
    exact execute_loop_all_continue net requrl streaming (es1 ++ e :: es2) hall le

/-- The network behavior of the C8 witness scenario: the daily endpoint
answers 503, everything else answers 429 with a 90-second retry-after and a
body that parses fine. -/
def c8_net : Str → HttpAnswer := fun u =>
  if u = ("https://daily-cloudcode-pa.sandbox.googleapis.com".data
      ++ "/v1internal:streamGenerateContent?alt=sse".data)
  then .http 503 none none
  else .http 429 (some 90000) none

/-- C8 witness: a prepared `gemini-3-pro` request against `c8_net` skips the
daily endpoint on its 503 and returns the autopush 429 immediately, never
attempting the prod endpoint. -/
theorem execute_fallback_behavior_witness :
    execute_loop c8_net (prepare_request "gemini-3-pro".data none none true).url
        true none
        ([ANTIGRAVITY_ENDPOINT_DAILY]
          ++ ANTIGRAVITY_ENDPOINT_AUTOPUSH :: [ANTIGRAVITY_ENDPOINT_PROD])
      = ({ success := false, status_code := 429,
           error := some "Rate limited".data,
           retry_after_ms := some (pyOrInt (some (90000 : Int)) 60000) },
         [ANTIGRAVITY_ENDPOINT_DAILY].map
            (rewrite_url (prepare_request "gemini-3-pro".data none none true).url)
          ++ [rewrite_url (prepare_request "gemini-3-pro".data none none true).url
              ANTIGRAVITY_ENDPOINT_AUTOPUSH]) :=
  (execute_fallback_behavior c8_net
      (prepare_request "gemini-3-pro".data none none true).url true none
      [ANTIGRAVITY_ENDPOINT_DAILY] ANTIGRAVITY_ENDPOINT_AUTOPUSH
      [ANTIGRAVITY_ENDPOINT_PROD] (by decide)).1 (some 90000) (by decide)

/-- C1, counterexample: for `gemini-2.5-pro` the resolved style is gemini-cli
and the prepared URL is prod-based, but the dispatch loop's first HTTP attempt
rewrites the base to the first fallback endpoint, so the first attempted URL
is E_daily-based, not E_prod-based. -/
theorem initial_endpoint_cex :
    get_header_style_from_model "gemini-2.5-pro".data = HEADER_STYLE_GEMINI_CLI
    ∧ (prepare_request "gemini-2.5-pro".data none none true).url
        = ANTIGRAVITY_ENDPOINT_PROD ++ "/v1internal:streamGenerateContent?alt=sse".data
    ∧ (client_execute (fun _ => .http 200 none none)
        (prepare_request "gemini-2.5-pro".data none none true) none).2.head?
        = some (ANTIGRAVITY_ENDPOINT_DAILY
            ++ "/v1internal:streamGenerateContent?alt=sse".data)
    ∧ (ANTIGRAVITY_ENDPOINT_DAILY ++ "/v1internal:streamGenerateContent?alt=sse".data)
        ≠ (ANTIGRAVITY_ENDPOINT_PROD ++ "/v1internal:streamGenerateContent?alt=sse".data) := by
  refine ⟨by decide, by decide, ?_, by decide⟩
  decide

/-- C1 (amended: the prepared URL uses E_prod for gemini-cli and E_daily
otherwise, but the first HTTP attempt of the dispatch loop is issued to
E_daily even for a gemini-cli-style request, because `execute` always starts
from the first fallback endpoint and rewrites the URL base). -/
theorem initial_endpoint_selection (model : Str) (header_style : Option Str)
    (streaming : Bool) :
    ((prepare_request model none header_style streaming).header_style
        = HEADER_STYLE_GEMINI_CLI →
      (prepare_request model none header_style streaming).endpoint
        = ANTIGRAVITY_ENDPOINT_PROD)
    ∧ ((prepare_request model none header_style streaming).header_style
        ≠ HEADER_STYLE_GEMINI_CLI →
      (prepare_request model none header_style streaming).endpoint
        = ANTIGRAVITY_ENDPOINT_DAILY)
    ∧ (prepare_request model none header_style streaming).url
        = (prepare_request model none header_style streaming).endpoint
          ++ "/v1internal:".data
          ++ (if streaming then "streamGenerateContent?alt=sse".data
              else "generateContent".data)
    ∧ (∀ net, (client_execute net
          (prepare_request "gemini-2.5-pro".data none none true) none).2.head?
        = some (ANTIGRAVITY_ENDPOINT_DAILY
            ++ "/v1internal:streamGenerateContent?alt=sse".data)) := by
  refine ⟨?_, ?_, ?_, ?_⟩
  · intro h
    simp only [prepare_request] at h ⊢
    by_cases hsty : (if pyTruthy header_style then header_style.getD []
        else get_header_style_from_model model) = HEADER_STYLE_GEMINI_CLI
    · rw [if_neg (by decide : ¬ pyTruthy (none : Option Str) = true), if_pos hsty]
      rfl
    · exact absurd h hsty
  · intro h
    simp only [prepare_request] at h ⊢
    by_cases hsty : (if pyTruthy header_style then header_style.getD []
        else get_header_style_from_model model) = HEADER_STYLE_GEMINI_CLI
    · exact absurd hsty h
    · rw [if_neg (by decide : ¬ pyTruthy (none : Option Str) = true), if_neg hsty]
      rfl
  · simp only [prepare_request]
    cases streaming with
    | false => simp
    | true =>
      have halt : ("streamGenerateContent".data ++ "?alt=sse".data : Str)
          = "streamGenerateContent?alt=sse".data := by decide
      simp [← halt]
  · intro net
    have hurl : rewrite_url (prepare_request "gemini-2.5-pro".data none none true).url
        ANTIGRAVITY_ENDPOINT_DAILY
        = ANTIGRAVITY_ENDPOINT_DAILY ++ "/v1internal:streamGenerateContent?alt=sse".data := by
      decide
    show (execute_loop net (prepare_request "gemini-2.5-pro".data none none true).url
        true none (ANTIGRAVITY_ENDPOINT_DAILY
          :: [ANTIGRAVITY_ENDPOINT_AUTOPUSH, ANTIGRAVITY_ENDPOINT_PROD])).2.head?
      = some (ANTIGRAVITY_ENDPOINT_DAILY
          ++ "/v1internal:streamGenerateContent?alt=sse".data)
    cases hnet : net (rewrite_url (prepare_request "gemini-2.5-pro".data none none true).url
        ANTIGRAVITY_ENDPOINT_DAILY) with
    | netError msg =>
      simp only [execute_loop, hnet]
      simp [hurl]
    | http s ra je =>
      by_cases h429 : s = 429
      · cases je with
        | none =>
          simp only [execute_loop, hnet, h429, if_pos rfl]
          simp [hurl]
        | some msg =>
          simp only [execute_loop, hnet, h429, if_pos rfl]
          simp [hurl]
      · by_cases hfb : isFallbackStatus s = true
        · simp only [execute_loop, hnet, if_neg h429, hfb, if_true]
          simp [hurl]
        · simp only [execute_loop, hnet, if_neg h429, hfb, Bool.false_eq_true,
            if_false, if_true]
          simp [hurl]

/-- C1 witness: the amended endpoint selection at the concrete gemini-cli
model `gemini-2.5-pro`. -/
theorem initial_endpoint_selection_witness :
    (prepare_request "gemini-2.5-pro".data none none true).endpoint
      = ANTIGRAVITY_ENDPOINT_PROD :=
  (initial_endpoint_selection "gemini-2.5-pro".data none true).1 (by decide)

/-! ## Claims C6 and C10: add-or-update, deduplication, ordering -/

/-- Update the first account satisfying `f` in place (the effect of the
find-index-then-assign sequence of `add_or_update_account`). -/
def update_first (f : AccountMetadata → Bool) (g : AccountMetadata → AccountMetadata) :
    List AccountMetadata → List AccountMetadata
  | [] => []
  | a :: rest => if f a then g a :: rest else a :: update_first f g rest

theorem findIdx_set_spec (f : AccountMetadata → Bool)
    (g : AccountMetadata → AccountMetadata) (x : AccountMetadata)
    (l : List AccountMetadata) :
    (match l.findIdx? f with
      | some i =>
        match l.get? i with
        | some a => l.set i (g a)
        | none => l
      | none => l ++ [x])
      = (if l.any f then update_first f g l else l ++ [x]) := by
  induction l with
  | nil => rfl
  | cons a rest ih =>
    by_cases hfa : f a = true
    · simp [List.findIdx?_cons, hfa, update_first]
    · have hstep : (a :: rest).findIdx? f = (rest.findIdx? f).map (· + 1) := by
        simp only [List.findIdx?_cons, hfa, Bool.false_eq_true, if_false,
          Nat.zero_add, List.findIdx?_start_succ]
      cases hfind : rest.findIdx? f with
      | none =>
        have hany : rest.any f = false := by
          rw [← List.findIdx?_isSome, hfind]; rfl
        rw [hstep, hfind]
        simp [hany, hfa]
      | some j =>
        have hany : rest.any f = true := by
          rw [← List.findIdx?_isSome, hfind]; rfl
        have ih2 := ih
        rw [hfind, if_pos hany] at ih2
        rw [hstep, hfind]
        have hany2 : (a :: rest).any f = true := by simp [hany]
        rw [if_pos hany2]
        show (match rest.get? j with
          | some b => (a :: rest).set (j + 1) (g b)
          | none => a :: rest) = update_first f g (a :: rest)
        have ih3 : (match rest.get? j with
          | some b => rest.set j (g b)
          | none => rest) = update_first f g rest := ih2
        cases hget : rest.get? j with
        | none =>
          rw [hget] at ih3
          simp only [update_first, hfa, Bool.false_eq_true, if_false]
          exact congrArg (a :: ·) ih3
        | some b =>
          rw [hget] at ih3
          simp only [update_first, hfa, Bool.false_eq_true, if_false, List.set_cons_succ]
          exact congrArg (a :: ·) ih3

/-- The account-list transform of `add_or_update_account` before
deduplication: update the first email match in place, or append. -/
def aou_core (now : Int) (email : Option Str) (rt : Str) (pid mpid : Option Str)
    (st : AccountStorage) : List AccountMetadata :=
  if pyTruthy email && st.accounts.any (fun a => a.email = email) then
    update_first (fun a => a.email = email) (apply_update now rt pid mpid) st.accounts
  else st.accounts ++ [fresh_account now email rt pid mpid]

theorem add_or_update_spec (now : Int) (email : Option Str) (rt : Str)
    (pid mpid : Option Str) (st : AccountStorage) :
    add_or_update_account now email rt pid mpid st
      = { st with
          accounts := deduplicate_accounts_by_email (aou_core now email rt pid mpid st)
          active_index :=
            if st.active_index
                ≥ ((deduplicate_accounts_by_email (aou_core now email rt pid mpid st)).length : Int)
            then 0 else st.active_index } := by
  unfold add_or_update_account aou_core
  by_cases he : pyTruthy email = true
  · simp only [he, if_true, Bool.true_and]
    rw [findIdx_set_spec (fun a => a.email = email)
      (apply_update now rt pid mpid)
      (fresh_account now email rt pid mpid) st.accounts]
  · simp only [Bool.not_eq_true] at he
    simp only [he, Bool.false_eq_true, if_false, Bool.false_and]

theorem dedupInsert_mem {byEmail : List (Str × AccountMetadata)} {e : Str}
    {a : AccountMetadata} {kv : Str × AccountMetadata}
    (h : kv ∈ dedupInsertByEmail byEmail e a) : kv ∈ byEmail ∨ kv = (e, a) := by
  induction byEmail with
  | nil => simpa [dedupInsertByEmail] using h
  | cons kv0 rest ih =>
    obtain ⟨e0, ex⟩ := kv0
    by_cases he0 : e0 = e
    · subst he0
      simp only [dedupInsertByEmail, if_pos rfl] at h
      by_cases h1 : a.last_used > ex.last_used
      · rw [if_pos h1] at h
        rcases List.mem_cons.mp h with rfl | hrest
        · right; rfl
        · left; exact List.mem_cons_of_mem _ hrest
      · rw [if_neg h1] at h
        by_cases h2 : a.last_used = ex.last_used ∧ a.added_at > ex.added_at
        · rw [if_pos h2] at h
          rcases List.mem_cons.mp h with rfl | hrest
          · right; rfl
          · left; exact List.mem_cons_of_mem _ hrest
        · rw [if_neg h2] at h
          rcases List.mem_cons.mp h with rfl | hrest
          · left; exact List.mem_cons_self _ _
          · left; exact List.mem_cons_of_mem _ hrest
    · simp only [dedupInsertByEmail, if_neg he0] at h
      rcases List.mem_cons.mp h with rfl | hrest
      · left; exact List.mem_cons_self _ _
      · rcases ih hrest with hin | heq
        · left; exact List.mem_cons_of_mem _ hin
        · right; exact heq

/-- The truthy-email segment of a pool. -/
def filterT (l : List AccountMetadata) : List AccountMetadata :=
  l.filter (fun a => pyTruthy a.email)

/-- The email-less segment of a pool. -/
def filterN (l : List AccountMetadata) : List AccountMetadata :=
  l.filter (fun a => !pyTruthy a.email)

/-- Invariant 1 of the spec: at most one identity per truthy email. -/
def emailsNodup (l : List AccountMetadata) : Prop :=
  (l.map (fun a => a.email)).Pairwise
    (fun x y => pyTruthy x = true → pyTruthy y = true → x ≠ y)

instance (l : List AccountMetadata) : Decidable (emailsNodup l) := by
  unfold emailsNodup
  exact List.instDecidablePairwise _

theorem emailsNodup_iff_pairwise (l : List AccountMetadata) :
    emailsNodup l ↔ l.Pairwise (fun a b =>
      pyTruthy a.email = true → pyTruthy b.email = true → a.email ≠ b.email) :=
  List.pairwise_map

theorem dedupInsert_fresh {byEmail : List (Str × AccountMetadata)} {e : Str}
    (a : AccountMetadata) (h : ∀ kv ∈ byEmail, kv.1 ≠ e) :
    dedupInsertByEmail byEmail e a = byEmail ++ [(e, a)] := by
  induction byEmail with
  | nil => rfl
  | cons kv0 rest ih =>
    obtain ⟨e0, ex⟩ := kv0
    have hne : e0 ≠ e := h (e0, ex) (List.mem_cons_self _ _)
    simp only [dedupInsertByEmail, if_neg hne, List.cons_append, List.cons.injEq,
      true_and]
    exact ih (fun kv hkv => h kv (List.mem_cons_of_mem _ hkv))

theorem dedup_go_nodup (l : List AccountMetadata) :
    ∀ (byEmail : List (Str × AccountMetadata)) (noEmail : List AccountMetadata),
    l.Pairwise (fun a b =>
      pyTruthy a.email = true → pyTruthy b.email = true → a.email ≠ b.email) →
    (∀ kv ∈ byEmail, ∀ a ∈ l, pyTruthy a.email = true → a.email ≠ some kv.1) →
    dedup_go l byEmail noEmail
      = (byEmail.map Prod.snd ++ filterT l) ++ (noEmail ++ filterN l) := by
  induction l with
  | nil =>
    intro byEmail noEmail _ _
    simp [dedup_go, filterT, filterN]
  | cons a rest ih =>
    intro byEmail noEmail hnd hfresh
    rw [List.pairwise_cons] at hnd
    by_cases ha : pyTruthy a.email = true
    · obtain ⟨key, hkey⟩ : ∃ s, a.email = some s := by
        cases hmail : a.email with
        | none => rw [hmail] at ha; simp [pyTruthy] at ha
        | some s => exact ⟨s, rfl⟩
      have hgetd : a.email.getD [] = key := by rw [hkey]; rfl
      have hfresh1 : ∀ kv ∈ byEmail, kv.1 ≠ a.email.getD [] := by
        intro kv hkv heq
        have := hfresh kv hkv a (List.mem_cons_self _ _) ha
        rw [hkey] at this
        rw [hgetd] at heq
        exact this (by rw [heq])
      simp only [dedup_go, ha, Bool.not_true, Bool.false_eq_true, if_false]
      rw [ih (dedupInsertByEmail byEmail (a.email.getD []) a) noEmail hnd.2 ?_]
      · rw [dedupInsert_fresh a hfresh1]
        simp only [List.map_append, List.map_cons, List.map_nil, filterT, filterN,
          List.filter_cons, ha, Bool.not_true, Bool.false_eq_true, if_false,
          if_true, List.append_assoc, List.cons_append, List.nil_append,
          List.singleton_append]
      · intro kv hkv b hb hbt
        rcases dedupInsert_mem hkv with hin | rfl
        · exact hfresh kv hin b (List.mem_cons_of_mem _ hb) hbt
        · rw [hgetd, ← hkey]
          exact fun hbe => (hnd.1 b hb ha hbt) hbe.symm
    · have ha2 : pyTruthy a.email = false := by
        cases h2 : pyTruthy a.email
        · rfl
        · exact absurd h2 ha
      simp only [dedup_go, ha2, Bool.not_false, if_true]
      rw [ih byEmail (noEmail ++ [a]) hnd.2 ?_]
      · simp only [filterT, filterN, List.filter_cons, ha2, Bool.not_false,
          Bool.false_eq_true, if_false, if_true, List.append_assoc,
          List.cons_append, List.singleton_append, List.nil_append]
      · intro kv hkv b hb hbt
        exact hfresh kv hkv b (List.mem_cons_of_mem _ hb) hbt

/-- Under email uniqueness, deduplication keeps every identity and just lays
the pool out as the truthy-email segment followed by the email-less one. -/
theorem deduplicate_nodup {l : List AccountMetadata} (h : emailsNodup l) :
    deduplicate_accounts_by_email l = filterT l ++ filterN l := by
  unfold deduplicate_accounts_by_email
  rw [dedup_go_nodup l [] [] ((emailsNodup_iff_pairwise l).mp h)
    (by intro kv hkv; simp at hkv)]
  simp

/-- Erase `last_used` on one identity, for the modulo-`last_used` comparison. -/
def scrub_account (a : AccountMetadata) : AccountMetadata := { a with last_used := 0 }

/-- Erase every `last_used` in a storage state. -/
def scrub_last_used (st : AccountStorage) : AccountStorage :=
  { st with accounts := st.accounts.map scrub_account }

theorem update_first_map_email (f : AccountMetadata → Bool)
    (g : AccountMetadata → AccountMetadata) (hg : ∀ a, (g a).email = a.email) :
    ∀ l : List AccountMetadata,
    (update_first f g l).map (fun a => a.email) = l.map (fun a => a.email) := by
  intro l
  induction l with
  | nil => rfl
  | cons b rest ih =>
    by_cases hfb : f b = true <;> simp [update_first, hfb, hg, ih]

theorem update_first_exists_match (f : AccountMetadata → Bool)
    (g : AccountMetadata → AccountMetadata) (hg : ∀ a, f (g a) = f a) :
    ∀ l : List AccountMetadata, l.any f = true →
    ∃ x ∈ update_first f g l, f x = true := by
  intro l
  induction l with
  | nil => intro h; simp at h
  | cons b rest ih =>
    intro hany
    by_cases hfb : f b = true
    · exact ⟨g b, by simp [update_first, hfb], by rw [hg]; exact hfb⟩
    · have : rest.any f = true := by
        simp only [List.any_cons, hfb, Bool.false_or] at hany
        exact hany
      obtain ⟨x, hx, hfx⟩ := ih this
      exact ⟨x, by simp [update_first, hfb, hx], hfx⟩

theorem update_first_unique_mem (f : AccountMetadata → Bool)
    (g : AccountMetadata → AccountMetadata) :
    ∀ l : List AccountMetadata,
    l.Pairwise (fun a b => f a = true → f b = true → False) →
    ∀ x ∈ update_first f g l, f x = true →
    ∃ a, a ∈ l ∧ f a = true ∧ x = g a := by
  intro l
  induction l with
  | nil => intro _ x hx; simp [update_first] at hx
  | cons b rest ih =>
    intro hP x hx hfx
    rw [List.pairwise_cons] at hP
    by_cases hfb : f b = true
    · simp only [update_first, hfb, if_true, List.mem_cons] at hx
      rcases hx with rfl | hxr
      · exact ⟨b, List.mem_cons_self _ _, hfb, rfl⟩
      · exact absurd (hP.1 x hxr hfb hfx) (by simp)
    · simp only [update_first, hfb, Bool.false_eq_true, if_false,
        List.mem_cons] at hx
      rcases hx with rfl | hxr
      · exact absurd hfx hfb
      · obtain ⟨a, ha, hfa, hxa⟩ := ih hP.2 x hxr hfx
        exact ⟨a, List.mem_cons_of_mem _ ha, hfa, hxa⟩

theorem update_first_map_scrub (f : AccountMetadata → Bool)
    (g : AccountMetadata → AccountMetadata) :
    ∀ l : List AccountMetadata,
    (∀ x ∈ l, f x = true → scrub_account (g x) = scrub_account x) →
    (update_first f g l).map scrub_account = l.map scrub_account := by
  intro l
  induction l with
  | nil => intro _; rfl
  | cons b rest ih =>
    intro h
    by_cases hfb : f b = true
    · simp only [update_first, hfb, if_true, List.map_cons,
        h b (List.mem_cons_self _ _) hfb]
    · simp only [update_first, hfb, Bool.false_eq_true, if_false, List.map_cons,
        ih (fun x hx hfx => h x (List.mem_cons_of_mem _ hx) hfx)]

theorem apply_update_email (now : Int) (rt : Str) (pid mpid : Option Str)
    (a : AccountMetadata) : (apply_update now rt pid mpid a).email = a.email := rfl

theorem apply_update_idem_scrub (now1 now2 : Int) (rt : Str)
    (pid mpid : Option Str) (a : AccountMetadata) :
    scrub_account (apply_update now2 rt pid mpid (apply_update now1 rt pid mpid a))
      = scrub_account (apply_update now1 rt pid mpid a) := by
  by_cases hp : pyTruthy pid = true <;> by_cases hm : pyTruthy mpid = true <;>
    simp [apply_update, scrub_account, hp, hm]

theorem apply_update_fresh_scrub (now1 now2 : Int) (e : Option Str) (rt : Str)
    (pid mpid : Option Str) :
    scrub_account (apply_update now2 rt pid mpid (fresh_account now1 e rt pid mpid))
      = scrub_account (fresh_account now1 e rt pid mpid) := by
  by_cases hp : pyTruthy pid = true <;> by_cases hm : pyTruthy mpid = true <;>
    simp [apply_update, fresh_account, scrub_account, hp, hm]

theorem emailsNodup_filter_split {l : List AccountMetadata} (h : emailsNodup l) :
    emailsNodup (filterT l ++ filterN l) := by
  rw [emailsNodup_iff_pairwise] at h ⊢
  rw [List.pairwise_append]
  refine ⟨List.Pairwise.sublist (List.filter_sublist _) h,
    List.Pairwise.sublist (List.filter_sublist _) h, ?_⟩
  intro x hx y hy _ h2
  have hyn := (List.mem_filter.mp hy).2
  rw [h2] at hyn
  simp at hyn

theorem filterT_map_scrub (l : List AccountMetadata) :
    filterT (l.map scrub_account) = (filterT l).map scrub_account := by
  induction l with
  | nil => rfl
  | cons a rest ih =>
    by_cases ha : pyTruthy a.email = true <;>
      simp [filterT, List.filter_cons, scrub_account, ha, ih] <;>
      exact ih

theorem filterN_map_scrub (l : List AccountMetadata) :
    filterN (l.map scrub_account) = (filterN l).map scrub_account := by
  induction l with
  | nil => rfl
  | cons a rest ih =>
    by_cases ha : pyTruthy a.email = true <;>
      simp [filterN, List.filter_cons, scrub_account, ha, ih] <;>
      exact ih

theorem filter_split_id {L T N : List AccountMetadata} (hL : L = T ++ N)
    (hT : ∀ x ∈ T, pyTruthy x.email = true)
    (hN : ∀ x ∈ N, pyTruthy x.email = false) :
    filterT L ++ filterN L = L := by
  subst hL
  unfold filterT filterN
  rw [List.filter_append, List.filter_append,
    List.filter_eq_self.mpr hT,
    List.filter_eq_nil_iff.mpr (by intro a ha hcon; simp [hN a ha] at hcon),
    List.filter_eq_nil_iff.mpr (by intro a ha hcon; simp [hT a ha] at hcon),
    List.filter_eq_self.mpr (by intro a ha; simp [hN a ha])]
  simp

theorem scrub_eq_of_fields (X Y : AccountStorage)
    (hv : X.version = Y.version)
    (ha : X.accounts.map scrub_account = Y.accounts.map scrub_account)
    (hi : X.active_index = Y.active_index)
    (hg : X.active_gemini = Y.active_gemini)
    (hc : X.active_claude = Y.active_claude) :
    scrub_last_used X = scrub_last_used Y := by
  obtain ⟨v, a, i, g, c⟩ := X
  obtain ⟨v2, a2, i2, g2, c2⟩ := Y
  simp only [scrub_last_used, AccountStorage.mk.injEq] at *
  exact ⟨hv, ha, hi, hg, hc⟩

theorem add_or_update_second_pass (now2 : Int) (e rt : Str)
    (pid mpid : Option Str) (st1 : AccountStorage) (he : e ≠ [])
    (hnodup1 : emailsNodup st1.accounts)
    (hany1 : st1.accounts.any (fun a => a.email = some e) = true)
    (hshape : ∃ T N, st1.accounts = T ++ N
        ∧ (∀ x ∈ T, pyTruthy x.email = true)
        ∧ (∀ x ∈ N, pyTruthy x.email = false))
    (hstable : ∀ x ∈ st1.accounts, x.email = some e →
        scrub_account (apply_update now2 rt pid mpid x) = scrub_account x)
    (hidx : st1.active_index < (st1.accounts.length : Int)) :
    scrub_last_used (add_or_update_account now2 (some e) rt pid mpid st1)
      = scrub_last_used st1 := by
  obtain ⟨T, N, hTN, hT, hN⟩ := hshape
  have htruthy : pyTruthy (some e) = true := by
    simp [pyTruthy, he]
  have hc2 : aou_core now2 (some e) rt pid mpid st1
      = update_first (fun a => a.email = some e) (apply_update now2 rt pid mpid)
          st1.accounts := by
    simp [aou_core, htruthy, hany1]
  have hmapemail : (aou_core now2 (some e) rt pid mpid st1).map (fun a => a.email)
      = st1.accounts.map (fun a => a.email) := by
    rw [hc2]
    exact update_first_map_email (fun a => a.email = some e)
      (apply_update now2 rt pid mpid) (fun a => rfl) st1.accounts
  have hnodup2 : emailsNodup (aou_core now2 (some e) rt pid mpid st1) := by
    unfold emailsNodup
    rw [hmapemail]
    exact hnodup1
  have hscrub2 : (aou_core now2 (some e) rt pid mpid st1).map scrub_account
      = st1.accounts.map scrub_account := by
    rw [hc2]
    refine update_first_map_scrub _ _ st1.accounts ?_
    intro x hx hfx
    exact hstable x hx (of_decide_eq_true hfx)
  have hsplitscrub : filterT (st1.accounts.map scrub_account)
      ++ filterN (st1.accounts.map scrub_account)
      = st1.accounts.map scrub_account := by
    refine filter_split_id (T := T.map scrub_account) (N := N.map scrub_account)
      (by rw [hTN, List.map_append]) ?_ ?_
    · intro x hx
      obtain ⟨y, hy, rfl⟩ := List.mem_map.mp hx
      exact hT y hy
    · intro x hx
      obtain ⟨y, hy, rfl⟩ := List.mem_map.mp hx
      exact hN y hy
  have hacc : (add_or_update_account now2 (some e) rt pid mpid st1).accounts.map
      scrub_account = st1.accounts.map scrub_account := by
    rw [add_or_update_spec]
    show (deduplicate_accounts_by_email (aou_core now2 (some e) rt pid mpid st1)).map
        scrub_account = _
    rw [deduplicate_nodup hnodup2, List.map_append, ← filterT_map_scrub,
      ← filterN_map_scrub, hscrub2, hsplitscrub]
  have hlen : ((deduplicate_accounts_by_email
      (aou_core now2 (some e) rt pid mpid st1)).length : Int)
      = (st1.accounts.length : Int) := by
    have h1 : (add_or_update_account now2 (some e) rt pid mpid st1).accounts
        = deduplicate_accounts_by_email (aou_core now2 (some e) rt pid mpid st1) := by
      rw [add_or_update_spec]
    have := congrArg List.length hacc
    rw [h1] at this
    simp only [List.length_map] at this
    exact_mod_cast this
  refine scrub_eq_of_fields _ _ ?_ hacc ?_ ?_ ?_
  · rw [add_or_update_spec]
  · rw [add_or_update_spec]
    show (if st1.active_index ≥ _ then (0 : Int) else st1.active_index) = _
    rw [hlen, if_neg (by omega)]
  · rw [add_or_update_spec]
  · rw [add_or_update_spec]

/-- C6, counterexample: with a null email, add-or-update appends a fresh
identity on every call — applying it twice to the empty pool yields two
identities where applying it once yields one, so the second application
changes the pool beyond `last_used`. -/
theorem add_or_update_idem_cex :
    (add_or_update_account 3 none "rt".data none none
        (add_or_update_account 3 none "rt".data none none {})).accounts.length = 2
    ∧ (add_or_update_account 3 none "rt".data none none
        ({} : AccountStorage)).accounts.length = 1 := by
  decide

/-- C6 (amended: restricted to a non-null (truthy) email, on a pool whose
truthy emails are pairwise distinct — spec invariant 1; with a null email
every application appends a fresh identity): applying add-or-update twice
with the same arguments yields the same storage as applying it once, modulo
`last_used` timestamps. -/
theorem add_or_update_idempotent (now1 now2 : Int) (e rt : Str)
    (pid mpid : Option Str) (st : AccountStorage) (he : e ≠ [])
    (hnodup : emailsNodup st.accounts) :
    scrub_last_used (add_or_update_account now2 (some e) rt pid mpid
        (add_or_update_account now1 (some e) rt pid mpid st))
      = scrub_last_used (add_or_update_account now1 (some e) rt pid mpid st) := by
  have htruthy : pyTruthy (some e) = true := by simp [pyTruthy, he]
  set O1 := add_or_update_account now1 (some e) rt pid mpid st with hO1def
  have hcommon : emailsNodup (aou_core now1 (some e) rt pid mpid st) →
      O1.accounts = filterT (aou_core now1 (some e) rt pid mpid st)
        ++ filterN (aou_core now1 (some e) rt pid mpid st) := by
    intro hnd
    rw [hO1def, add_or_update_spec]
    exact deduplicate_nodup hnd
  by_cases hany : st.accounts.any (fun a => a.email = some e) = true
  · have hc1 : aou_core now1 (some e) rt pid mpid st
        = update_first (fun a => a.email = some e)
            (apply_update now1 rt pid mpid) st.accounts := by
      simp [aou_core, htruthy, hany]
    have hmap1 : (aou_core now1 (some e) rt pid mpid st).map (fun a => a.email)
        = st.accounts.map (fun a => a.email) := by
      rw [hc1]
      exact update_first_map_email (fun a => a.email = some e)
        (apply_update now1 rt pid mpid) (fun a => rfl) st.accounts
    have hnodup1 : emailsNodup (aou_core now1 (some e) rt pid mpid st) := by
      unfold emailsNodup
      rw [hmap1]
      exact hnodup
    have hO1acc := hcommon hnodup1
    have hex : ∃ x ∈ aou_core now1 (some e) rt pid mpid st,
        decide (x.email = some e) = true := by
      rw [hc1]
      exact update_first_exists_match (fun a => a.email = some e)
        (apply_update now1 rt pid mpid) (fun a => rfl) st.accounts hany
    have hanyO1 : O1.accounts.any (fun a => a.email = some e) = true := by
      rw [List.any_eq_true]
      obtain ⟨x, hx, hfx⟩ := hex
      refine ⟨x, ?_, hfx⟩
      rw [hO1acc]
      refine List.mem_append.mpr (Or.inl (List.mem_filter.mpr ⟨hx, ?_⟩))
      rw [of_decide_eq_true hfx]
      exact htruthy
    have hP : st.accounts.Pairwise (fun a b =>
        decide (a.email = some e) = true → decide (b.email = some e) = true →
          False) := by
      refine ((emailsNodup_iff_pairwise st.accounts).mp hnodup).imp ?_
      intro a b hR hfa hfb
      have ha := of_decide_eq_true hfa
      have hb := of_decide_eq_true hfb
      exact (hR (by rw [ha]; exact htruthy) (by rw [hb]; exact htruthy))
        (by rw [ha, hb])
    have hstable : ∀ x ∈ O1.accounts, x.email = some e →
        scrub_account (apply_update now2 rt pid mpid x) = scrub_account x := by
      intro x hxO hfx
      have hxcore : x ∈ aou_core now1 (some e) rt pid mpid st := by
        rw [hO1acc] at hxO
        rcases List.mem_append.mp hxO with h | h
        · exact (List.mem_filter.mp h).1
        · exact (List.mem_filter.mp h).1
      rw [hc1] at hxcore
      obtain ⟨a, haA, hfa, rfl⟩ := update_first_unique_mem
        (fun a => a.email = some e) (apply_update now1 rt pid mpid)
        st.accounts hP x hxcore (decide_eq_true hfx)
      exact apply_update_idem_scrub now1 now2 rt pid mpid a
    have hshape : ∃ T N, O1.accounts = T ++ N
        ∧ (∀ x ∈ T, pyTruthy x.email = true)
        ∧ (∀ x ∈ N, pyTruthy x.email = false) := by
      refine ⟨_, _, hO1acc, ?_, ?_⟩
      · intro x hx
        exact (List.mem_filter.mp hx).2
      · intro x hx
        have := (List.mem_filter.mp hx).2
        simp only [Bool.not_eq_true'] at this
        exact this
    have hnodupO1 : emailsNodup O1.accounts := by
      rw [hO1acc]
      exact emailsNodup_filter_split hnodup1
    have hne : O1.accounts ≠ [] := by
      intro h0
      rw [h0] at hanyO1
      simp at hanyO1
    have hO1idx : O1.active_index
        = (if st.active_index ≥ (O1.accounts.length : Int) then 0
           else st.active_index) := by
      rw [hO1def, add_or_update_spec]
    have hidx : O1.active_index < (O1.accounts.length : Int) := by
      have hlenpos : 0 < O1.accounts.length := List.length_pos.mpr hne
      have hcast : (1 : Int) ≤ (O1.accounts.length : Int) := by exact_mod_cast hlenpos
      rw [hO1idx]
      by_cases hst : st.active_index ≥ (O1.accounts.length : Int)
      · rw [if_pos hst]; omega
      · rw [if_neg hst]; omega
    exact add_or_update_second_pass now2 e rt pid mpid O1 he hnodupO1 hanyO1
      hshape hstable hidx
  · have hanyF : st.accounts.any (fun a => a.email = some e) = false := by
      cases h2 : st.accounts.any (fun a => a.email = some e)
      · rfl
      · exact absurd h2 hany
    have hnone : ∀ x ∈ st.accounts, ¬ (x.email = some e) := by
      intro x hx hcon
      have : st.accounts.any (fun a => a.email = some e) = true :=
        List.any_eq_true.mpr ⟨x, hx, decide_eq_true hcon⟩
      rw [hanyF] at this
      exact Bool.false_ne_true this
    have hc1 : aou_core now1 (some e) rt pid mpid st
        = st.accounts ++ [fresh_account now1 (some e) rt pid mpid] := by
      simp [aou_core, htruthy, hanyF]
    have hnodup1 : emailsNodup (aou_core now1 (some e) rt pid mpid st) := by
      unfold emailsNodup
      rw [hc1, List.map_append, List.pairwise_append]
      refine ⟨hnodup, by simp, ?_⟩
      intro x hx y hy
      simp only [List.map_cons, List.map_nil, List.mem_singleton] at hy
      obtain ⟨a, ha, rfl⟩ := List.mem_map.mp hx
      subst hy
      intro _ _
      exact fun heq => hnone a ha (show a.email = some e from heq)
    have hO1acc := hcommon hnodup1
    have hanyO1 : O1.accounts.any (fun a => a.email = some e) = true := by
      rw [List.any_eq_true]
      refine ⟨fresh_account now1 (some e) rt pid mpid, ?_, by simp [fresh_account]⟩
      rw [hO1acc]
      refine List.mem_append.mpr (Or.inl (List.mem_filter.mpr ⟨?_, ?_⟩))
      · rw [hc1]
        exact List.mem_append.mpr (Or.inr (List.mem_singleton.mpr rfl))
      · exact htruthy
    have hstable : ∀ x ∈ O1.accounts, x.email = some e →
        scrub_account (apply_update now2 rt pid mpid x) = scrub_account x := by
      intro x hxO hfx
      have hxcore : x ∈ aou_core now1 (some e) rt pid mpid st := by
        rw [hO1acc] at hxO
        rcases List.mem_append.mp hxO with h | h
        · exact (List.mem_filter.mp h).1
        · exact (List.mem_filter.mp h).1
      rw [hc1] at hxcore
      rcases List.mem_append.mp hxcore with h | h
      · exact absurd hfx (hnone x h)
      · rw [List.mem_singleton.mp h]
        exact apply_update_fresh_scrub now1 now2 (some e) rt pid mpid
    have hshape : ∃ T N, O1.accounts = T ++ N
        ∧ (∀ x ∈ T, pyTruthy x.email = true)
        ∧ (∀ x ∈ N, pyTruthy x.email = false) := by
      refine ⟨_, _, hO1acc, ?_, ?_⟩
      · intro x hx
        exact (List.mem_filter.mp hx).2
      · intro x hx
        have := (List.mem_filter.mp hx).2
        simp only [Bool.not_eq_true'] at this
        exact this
    have hnodupO1 : emailsNodup O1.accounts := by
      rw [hO1acc]
      exact emailsNodup_filter_split hnodup1
    have hne : O1.accounts ≠ [] := by
      intro h0
      rw [h0] at hanyO1
      simp at hanyO1
    have hO1idx : O1.active_index
        = (if st.active_index ≥ (O1.accounts.length : Int) then 0
           else st.active_index) := by
      rw [hO1def, add_or_update_spec]
    have hidx : O1.active_index < (O1.accounts.length : Int) := by
      have hlenpos : 0 < O1.accounts.length := List.length_pos.mpr hne
      have hcast : (1 : Int) ≤ (O1.accounts.length : Int) := by exact_mod_cast hlenpos
      rw [hO1idx]
      by_cases hst : st.active_index ≥ (O1.accounts.length : Int)
      · rw [if_pos hst]; omega
      · rw [if_neg hst]; omega
    exact add_or_update_second_pass now2 e rt pid mpid O1 he hnodupO1 hanyO1
      hshape hstable hidx

/-- C6 witness: the amended idempotence on a concrete pool with one distinct
emailed identity. -/
theorem add_or_update_idempotent_witness :
    scrub_last_used (add_or_update_account 8 (some "e".data) "r2".data none none
        (add_or_update_account 7 (some "e".data) "r2".data none none
          { accounts := [fresh_account 0 (some "e".data) "r1".data none none] }))
      = scrub_last_used (add_or_update_account 7 (some "e".data) "r2".data none none
          { accounts := [fresh_account 0 (some "e".data) "r1".data none none] }) :=
  add_or_update_idempotent 7 8 "e".data "r2".data none none
    { accounts := [fresh_account 0 (some "e".data) "r1".data none none] }
    (by decide) (by decide)

/-! ## Claim C4: active-index range invariant -/

/-- The claimed invariant, as stated: `0 ≤ active-index[f] < len(pool)` for
both families whenever the pool is non-empty. -/
def mgrInvB (st : MgrState) : Bool :=
  st.accounts.isEmpty ||
    (decide (0 ≤ st.active_gemini)
      && decide (st.active_gemini < (st.accounts.length : Int))
      && decide (0 ≤ st.active_claude)
      && decide (st.active_claude < (st.accounts.length : Int)))

/-- The strengthened per-family index invariant: in range, or the pool is
empty and the index is 0. -/
def idxOk (i : Int) (len : Nat) : Prop :=
  (len = 0 ∧ i = 0) ∨ (0 ≤ i ∧ i < (len : Int))

/-- Strengthened invariant for the in-memory manager state. -/
def mgrStrongInv (st : MgrState) : Prop :=
  idxOk st.active_gemini st.accounts.length
    ∧ idxOk st.active_claude st.accounts.length

/-- Strengthened invariant for the persisted storage (its per-family indices). -/
def storStrongInv (st : AccountStorage) : Prop :=
  idxOk st.active_gemini st.accounts.length
    ∧ idxOk st.active_claude st.accounts.length

instance (i : Int) (len : Nat) : Decidable (idxOk i len) := by
  unfold idxOk; infer_instance

instance (st : MgrState) : Decidable (mgrStrongInv st) := by
  unfold mgrStrongInv; infer_instance

instance (st : AccountStorage) : Decidable (storStrongInv st) := by
  unfold storStrongInv; infer_instance

/-- C4, counterexample: the empty pool with a stale per-family index 1
satisfies the claimed invariant vacuously, but `ensure_account_exists` then
appends one identity and leaves the index at 1 = len, violating it — so the
invariant as stated is not preserved. -/
theorem pool_invariant_cex :
    mgrInvB { accounts := [], active_gemini := 1, active_claude := 0 } = true
    ∧ mgrInvB (ensure_account_exists 0
        { accounts := [], active_gemini := 1, active_claude := 0 }
        "r".data none none none).2 = false := by
  decide

theorem idxOk_nonneg {i : Int} {len : Nat} (h : idxOk i len) : 0 ≤ i := by
  rcases h with ⟨_, rfl⟩ | ⟨h1, _⟩
  · omega
  · exact h1

theorem idxOk_le {i : Int} {len len2 : Nat} (h : idxOk i len) (hle : len ≤ len2) :
    idxOk i len2 := by
  rcases h with ⟨h0, rfl⟩ | ⟨h1, h2⟩
  · rcases Nat.eq_zero_or_pos len2 with rfl | hpos
    · exact Or.inl ⟨rfl, rfl⟩
    · exact Or.inr ⟨le_refl 0, by exact_mod_cast hpos⟩
  · exact Or.inr ⟨h1, by omega⟩

theorem idxOk_of_lt {idx len : Nat} (h : idx < len) : idxOk (idx : Int) len :=
  Or.inr ⟨by omega, by exact_mod_cast h⟩

theorem clamp_active_idxOk (i : Int) (len : Nat) (h : 0 ≤ i) :
    idxOk (clamp_active i len) len := by
  unfold clamp_active
  by_cases hge : i ≥ (len : Int)
  · rw [if_pos hge]
    rcases Nat.eq_zero_or_pos len with rfl | hpos
    · exact Or.inl ⟨rfl, by omega⟩
    · refine Or.inr ⟨by omega, by omega⟩
  · rw [if_neg hge]
    refine Or.inr ⟨h, by omega⟩

theorem activeIndexSet_strong {st : MgrState} (family : Str) {idx : Nat}
    (hinv : mgrStrongInv st) (hidx : idx < st.accounts.length) :
    mgrStrongInv (activeIndexSet st family (idx : Int)) := by
  unfold activeIndexSet
  by_cases hg : family = MODEL_FAMILY_GEMINI
  · rw [if_pos hg]
    exact ⟨idxOk_of_lt hidx, hinv.2⟩
  · rw [if_neg hg]
    by_cases hc : family = MODEL_FAMILY_CLAUDE
    · rw [if_pos hc]
      exact ⟨hinv.1, idxOk_of_lt hidx⟩
    · rw [if_neg hc]
      exact hinv

theorem get_next_go_strong (now : Int) (st : MgrState) (family : Str)
    (model : Option Str) (cur : Int) (hinv : mgrStrongInv st) :
    ∀ offs : List Nat,
    mgrStrongInv (get_next_go now st family model cur offs).2 := by
  intro offs
  induction offs with
  | nil => exact hinv
  | cons offset rest ih =>
    simp only [get_next_go]
    cases hget : st.accounts.get?
        (((cur + (offset : Int)) % (st.accounts.length : Int)).toNat) with
    | none => exact ih
    | some a =>
      by_cases hrl : is_rate_limited now a family model = true
      · simp only [hrl, Bool.not_true, Bool.false_eq_true, if_false]
        exact ih
      · have hrl2 : is_rate_limited now a family model = false := by
          cases h2 : is_rate_limited now a family model
          · rfl
          · exact absurd h2 hrl
        simp only [hrl2, Bool.not_false, if_true]
        have hidx : (((cur + (offset : Int)) % (st.accounts.length : Int)).toNat)
            < st.accounts.length := (List.get?_eq_some.mp hget).choose
        refine activeIndexSet_strong family ?_ ?_
        · constructor
          · show idxOk _ (st.accounts.set _ _).length
            rw [List.length_set]
            exact hinv.1
          · show idxOk _ (st.accounts.set _ _).length
            rw [List.length_set]
            exact hinv.2
        · rw [List.length_set]
          exact hidx

theorem get_next_strong (now : Int) (st : MgrState) (family : Str)
    (model : Option Str) (hinv : mgrStrongInv st) :
    mgrStrongInv (get_next_for_family now st family model).2 := by
  unfold get_next_for_family
  by_cases hemp : st.accounts = []
  · rw [if_pos hemp]
    exact hinv
  · rw [if_neg hemp]
    exact get_next_go_strong now st family model _ hinv _

theorem get_current_or_next_strong (now : Int) (st : MgrState) (family : Str)
    (model : Option Str) (header_style : Str) (hinv : mgrStrongInv st) :
    mgrStrongInv (get_current_or_next_for_family now st family model header_style).2 := by
  unfold get_current_or_next_for_family
  split
  · split
    · split
      · exact ⟨by simp only [List.length_set]; exact hinv.1,
               by simp only [List.length_set]; exact hinv.2⟩
      · exact get_next_strong now st family model hinv
    · exact get_next_strong now st family model hinv
  · exact get_next_strong now st family model hinv

theorem ensure_update_scan_length (rt : Str) (pid mpid email : Option Str) :
    ∀ (l : List ManagedAccount) (a2 : ManagedAccount) (l2 : List ManagedAccount),
    ensure_update_scan rt pid mpid email l = some (a2, l2) →
    l2.length = l.length := by
  intro l
  induction l with
  | nil => intro a2 l2 h; simp [ensure_update_scan] at h
  | cons a rest ih =>
    intro a2 l2 h
    by_cases hmail : a.email = email
    · simp only [ensure_update_scan, if_pos hmail, Option.some.injEq,
        Prod.mk.injEq] at h
      rw [← h.2]
      rfl
    · simp only [ensure_update_scan, if_neg hmail] at h
      cases hrec : ensure_update_scan rt pid mpid email rest with
      | none => rw [hrec] at h; simp at h
      | some r2 =>
        rw [hrec] at h
        simp only [Option.some.injEq, Prod.mk.injEq] at h
        rw [← h.2, List.length_cons, ih r2.1 r2.2 (by rw [hrec])]
        rfl

theorem ensure_strong (now : Int) (st : MgrState) (rt : Str)
    (pid mpid email : Option Str) (hinv : mgrStrongInv st) :
    mgrStrongInv (ensure_account_exists now st rt pid mpid email).2 := by
  have happend : mgrStrongInv { st with accounts := st.accounts
      ++ [default_new_account now st rt pid mpid email] } := by
    refine ⟨?_, ?_⟩ <;>
      simp only [List.length_append, List.length_cons, List.length_nil]
    · exact idxOk_le hinv.1 (by omega)
    · exact idxOk_le hinv.2 (by omega)
  unfold ensure_account_exists
  cases hfind : st.accounts.find? (fun a => a.refresh_token = rt) with
  | some a => exact hinv
  | none =>
    cases hmat : (if pyTruthy email then
        ensure_update_scan rt pid mpid email st.accounts
      else none) with
    | none => exact happend
    | some r =>
      by_cases he : pyTruthy email = true
      · rw [if_pos he] at hmat
        have hlen := ensure_update_scan_length rt pid mpid email st.accounts
          r.1 r.2 (by rw [hmat])
        exact ⟨by show idxOk _ r.2.length; rw [hlen]; exact hinv.1,
               by show idxOk _ r.2.length; rw [hlen]; exact hinv.2⟩
      · rw [if_neg he] at hmat
        exact absurd hmat (by simp)

theorem remove_strong (st : MgrState) (acc : ManagedAccount)
    (hinv : mgrStrongInv st) : mgrStrongInv (remove_account st acc).2 := by
  unfold remove_account
  by_cases hmem : acc ∈ st.accounts
  · rw [if_pos hmem]
    exact ⟨clamp_active_idxOk _ _ (idxOk_nonneg hinv.1),
           clamp_active_idxOk _ _ (idxOk_nonneg hinv.2)⟩
  · rw [if_neg hmem]
    exact hinv

theorem update_first_length (f : AccountMetadata → Bool)
    (g : AccountMetadata → AccountMetadata) :
    ∀ l : List AccountMetadata, (update_first f g l).length = l.length := by
  intro l
  induction l with
  | nil => rfl
  | cons a rest ih =>
    by_cases hfa : f a = true <;> simp [update_first, hfa, ih]

theorem filter_split_length (l : List AccountMetadata) :
    (filterT l).length + (filterN l).length = l.length := by
  induction l with
  | nil => rfl
  | cons a rest ih =>
    by_cases ha : pyTruthy a.email = true <;>
      simp only [filterT, filterN, List.filter_cons, ha, Bool.not_true,
        Bool.not_false, Bool.false_eq_true, if_false, if_true,
        List.length_cons] <;>
      unfold filterT filterN at ih <;> omega

theorem dedup_length_nodup {l : List AccountMetadata} (h : emailsNodup l) :
    (deduplicate_accounts_by_email l).length = l.length := by
  rw [deduplicate_nodup h, List.length_append]
  exact filter_split_length l

theorem aou_core_nodup (now : Int) (email : Option Str) (rt : Str)
    (pid mpid : Option Str) (st : AccountStorage)
    (hnodup : emailsNodup st.accounts) :
    emailsNodup (aou_core now email rt pid mpid st) := by
  unfold aou_core
  split
  · unfold emailsNodup
    rw [update_first_map_email (fun a => a.email = email)
      (apply_update now rt pid mpid) (fun a => rfl) st.accounts]
    exact hnodup
  · rename_i hcond
    unfold emailsNodup
    rw [List.map_append, List.pairwise_append]
    refine ⟨hnodup, by simp, ?_⟩
    intro x hx y hy htx hty
    simp only [List.map_cons, List.map_nil, List.mem_singleton] at hy
    obtain ⟨a, ha, rfl⟩ := List.mem_map.mp hx
    subst hy
    intro heq
    have hany : st.accounts.any (fun b => b.email = y) = true :=
      List.any_eq_true.mpr ⟨a, ha, decide_eq_true heq⟩
    exact hcond (by rw [hty, hany]; rfl)

theorem aou_core_length (now : Int) (email : Option Str) (rt : Str)
    (pid mpid : Option Str) (st : AccountStorage) :
    st.accounts.length ≤ (aou_core now email rt pid mpid st).length := by
  unfold aou_core
  split
  · rw [update_first_length]
  · simp

theorem add_or_update_strong (now : Int) (email : Option Str) (rt : Str)
    (pid mpid : Option Str) (st : AccountStorage) (hinv : storStrongInv st)
    (hnodup : emailsNodup st.accounts) :
    storStrongInv (add_or_update_account now email rt pid mpid st) := by
  rw [add_or_update_spec]
  have hlen : st.accounts.length
      ≤ (deduplicate_accounts_by_email (aou_core now email rt pid mpid st)).length := by
    rw [dedup_length_nodup (aou_core_nodup now email rt pid mpid st hnodup)]
    exact aou_core_length now email rt pid mpid st
  exact ⟨idxOk_le hinv.1 hlen, idxOk_le hinv.2 hlen⟩

theorem set_active_strong (i : Int) (st st2 : AccountStorage)
    (hinv : storStrongInv st)
    (h : (set_active_account i (some st)).2 = some st2) : storStrongInv st2 := by
  unfold set_active_account at h
  have h2 : (if i < 0 ∨ i ≥ (st.accounts.length : Int)
        then ((false, some st) : Bool × Option AccountStorage)
        else (true, some { st with
          active_index := i, active_gemini := i, active_claude := i })).2
      = some st2 := h
  by_cases hbad : i < 0 ∨ i ≥ (st.accounts.length : Int)
  · rw [if_pos hbad] at h2
    cases h2
    exact hinv
  · rw [if_neg hbad] at h2
    cases h2
    push_neg at hbad
    exact ⟨Or.inr ⟨hbad.1, hbad.2⟩, Or.inr ⟨hbad.1, hbad.2⟩⟩

theorem mgrStrongInv_implies_claimed (st : MgrState) (h : mgrStrongInv st) :
    mgrInvB st = true := by
  simp only [mgrInvB, Bool.or_eq_true, Bool.and_eq_true, decide_eq_true_eq]
  by_cases hacc : st.accounts = []
  · left
    simp [hacc]
  · right
    have hlen : st.accounts.length ≠ 0 :=
      fun h0 => hacc (List.length_eq_zero.mp h0)
    rcases h.1 with ⟨h0, _⟩ | ⟨g1, g2⟩
    · exact absurd h0 hlen
    rcases h.2 with ⟨h0, _⟩ | ⟨c1, c2⟩
    · exact absurd h0 hlen
    exact ⟨⟨⟨g1, g2⟩, c1⟩, c2⟩

/-- C4 (amended: the invariant must be strengthened to pin active indices to 0
on the empty pool — `idxOk` — and, for add-or-update, the pool's truthy emails
must be pairwise distinct, spec invariant 1; the strengthened invariant
implies the claimed one and is preserved by every listed operation): selection
via get-next and get-current-or-next, remove-account, ensure-account-exists,
add-or-update and set-active all preserve the per-family active-index range
invariant. -/
theorem pool_invariant_preserved :
    (∀ st : MgrState, mgrStrongInv st → mgrInvB st = true)
    ∧ (∀ (now : Int) (st : MgrState) (family : Str) (model : Option Str),
        mgrStrongInv st → mgrStrongInv (get_next_for_family now st family model).2)
    ∧ (∀ (now : Int) (st : MgrState) (family : Str) (model : Option Str)
        (header_style : Str), mgrStrongInv st →
        mgrStrongInv (get_current_or_next_for_family now st family model
          header_style).2)
    ∧ (∀ (now : Int) (st : MgrState) (rt : Str) (pid mpid email : Option Str),
        mgrStrongInv st →
        mgrStrongInv (ensure_account_exists now st rt pid mpid email).2)
    ∧ (∀ (st : MgrState) (acc : ManagedAccount), mgrStrongInv st →
        mgrStrongInv (remove_account st acc).2)
    ∧ (∀ (now : Int) (email : Option Str) (rt : Str) (pid mpid : Option Str)
        (st : AccountStorage), storStrongInv st → emailsNodup st.accounts →
        storStrongInv (add_or_update_account now email rt pid mpid st))
    ∧ (∀ (i : Int) (st st2 : AccountStorage), storStrongInv st →
        (set_active_account i (some st)).2 = some st2 → storStrongInv st2) :=
  ⟨mgrStrongInv_implies_claimed,
   fun now st family model h => get_next_strong now st family model h,
   fun now st family model hs h =>
     get_current_or_next_strong now st family model hs h,
   fun now st rt pid mpid email h => ensure_strong now st rt pid mpid email h,
   fun st acc h => remove_strong st acc h,
   fun now email rt pid mpid st h hn =>
     add_or_update_strong now email rt pid mpid st h hn,
   fun i st st2 h heq => set_active_strong i st st2 h heq⟩

def c4_acc : ManagedAccount :=
  { index := 0, email := none, refresh_token := "r".data, added_at := 0, last_used := 0 }

def c4_pool : MgrState := { accounts := [c4_acc] }

/-- C4 witness: removing the only identity from a one-identity pool keeps the
strengthened invariant (indices clamp to 0). -/
theorem pool_invariant_preserved_witness :
    mgrStrongInv (remove_account c4_pool c4_acc).2 :=
  pool_invariant_preserved.2.2.2.2.1 c4_pool c4_acc (by decide)
